import Mathlib

/-!
Shallow embedding of the scalar reverse-mode automatic-differentiation
engine of `src/engine.py` (class `Value`), together with the
neural-network-facing construction operators it exposes.

Modelling choices, all driven by the Python source:

* Python `Value` objects are mutable and compared by identity, and the
  computation graph shares nodes.  We model the heap of `Value` objects as
  an arena: a `List` of node records, where a node is referred to by its
  index (its allocation position).  Every operation appends its fresh
  `out` node at the end, so operand indices are strictly smaller than the
  index of the node they feed — this is the `WF` invariant below, which the
  Python code guarantees by construction.
* `data` and `grad` are Python floats; we model them as `ℚ` (exact
  arithmetic; the spec's claims are about exact analytic values).
* The per-node `_backward` closure created by each operation reads only
  the operand indices, the operation kind and a possible constant
  exponent, so we defunctionalize it as the tag `Op` stored on the node;
  `stepBackward` interprets the tag exactly as the corresponding Python
  closure body does, statement by statement.
* `_prev = set(_children)` is modelled as the deduplicated operand list
  `prevList` (Python set iteration order is unspecified; dedup order is a
  fixed representative, and none of the proved properties depend on it).
* `__pow__` accepts only `int`/`float` exponents (enforced with an
  `assert`).  The repository only ever uses integer exponents, and ℚ has
  no total real power, so exponents are modelled as `ℤ` with `zpow`.
* Python raises `ZeroDivisionError` on `0 ** negative`, `TypeError` when
  an operand is neither a `Value` nor a number, and `AssertionError` for
  a non-numeric power exponent.  The `…Py` variants of the operators and
  `backwardE` model these eagerly-raised errors in `Except`; the total
  functions model the non-raising executions.
-/

namespace Micrograd

/-- Defunctionalized record of the operation that created a node: this
determines both `_prev` (the operand indices) and the `_backward`
closure of the Python source.  `leaf` is a node created directly with
`Value(data)` (its `_backward` is `lambda: None`). -/
inductive Op : Type
  | leaf : Op
  | add : ℕ → ℕ → Op
  | mul : ℕ → ℕ → Op
  | pow : ℕ → ℤ → Op
  | relu : ℕ → Op
  deriving DecidableEq, Repr

/-- Operand references of an operation, with multiplicity, in the order
the creating Python operation captured them (`self` first). -/
def Op.args : Op → List ℕ
  | .leaf => []
  | .add a b => [a, b]
  | .mul a b => [a, b]
  | .pow a _ => [a]
  | .relu a => [a]

/-- One node of the computation graph: the Python `Value` object, with
its `data`, its mutable `grad`, and the defunctionalized record of its
creating operation (which determines `_prev` and `_backward`). -/
structure Value : Type where
  data : ℚ
  grad : ℚ
  op : Op
  deriving DecidableEq, Repr

/-- The arena of allocated `Value` objects; a node is its index. -/
abbrev Graph : Type := List Value

/-- Length of the arena, i.e. the number of allocated nodes. -/
def glen (g : Graph) : ℕ := List.length g

/-- The `data` field of node `i` (0 for an unallocated index). -/
def dataAt (g : Graph) (i : ℕ) : ℚ := (g[i]?.map Value.data).getD 0

/-- The `grad` field of node `i` (0 for an unallocated index). -/
def gradAt (g : Graph) (i : ℕ) : ℚ := (g[i]?.map Value.grad).getD 0

/-- The operation record of node `i` (`leaf` for an unallocated index). -/
def opAt (g : Graph) (i : ℕ) : Op := (g[i]?.map Value.op).getD .leaf

/-- The `_prev` set of node `i`: `set(_children)` in the source,
modelled as the deduplicated operand list. -/
def prevList (g : Graph) (i : ℕ) : List ℕ := (opAt g i).args.dedup

/-- Well-formedness: every operand edge points to a strictly earlier
node.  The Python code guarantees this by construction, because each
operation allocates its `out` node after its operands already exist. -/
def WF (g : Graph) : Prop := ∀ i < glen g, ∀ j ∈ prevList g i, j < i

instance (g : Graph) : Decidable (WF g) := by
  unfold WF; infer_instance

/-- Edge-reachability from `a` down to `b` along operand (`_prev`)
edges; this is the set of nodes the `build_topo` traversal can reach. -/
def Reaches (g : Graph) : ℕ → ℕ → Prop :=
  Relation.ReflTransGen (fun p q => q ∈ prevList g p)

/-! ### Construction operations (graph building) -/

/-- Literal `Value(data)` construction: a leaf node with `grad = 0`. -/
def mkValue (g : Graph) (c : ℚ) : Graph × ℕ :=
  (g ++ [⟨c, 0, .leaf⟩], glen g)

/-- Core of `Value.__add__` once `other` is a `Value`: allocates
`out = Value(self.data + other.data, (self, other), '+')`. -/
def addOp (g : Graph) (i j : ℕ) : Graph × ℕ :=
  (g ++ [⟨dataAt g i + dataAt g j, 0, .add i j⟩], glen g)

/-- Core of `Value.__mul__` once `other` is a `Value`. -/
def mulOp (g : Graph) (i j : ℕ) : Graph × ℕ :=
  (g ++ [⟨dataAt g i * dataAt g j, 0, .mul i j⟩], glen g)

/-- Core of `Value.__pow__` for an `int` exponent, ignoring the
zero-base error case: `out = Value(self.data**other, (self,), ...)`. -/
def powOp (g : Graph) (i : ℕ) (p : ℤ) : Graph × ℕ :=
  (g ++ [⟨dataAt g i ^ p, 0, .pow i p⟩], glen g)

/-- `Value.relu`: `out = Value(0 if self.data < 0 else self.data, (self,), 'ReLU')`. -/
def reluOp (g : Graph) (i : ℕ) : Graph × ℕ :=
  (g ++ [⟨if dataAt g i < 0 then 0 else dataAt g i, 0, .relu i⟩], glen g)

/-- `Value.__neg__`: `self * -1`, which lifts `-1` to a leaf `Value`
inside `__mul__` and then multiplies. -/
def negOp (g : Graph) (i : ℕ) : Graph × ℕ :=
  let r := mkValue g (-1)
  mulOp r.1 i r.2

/-- `Value.__sub__` for a `Value` operand: `self + (-other)`. -/
def subOp (g : Graph) (i j : ℕ) : Graph × ℕ :=
  let r := negOp g j
  addOp r.1 i r.2

/-! ### Error-aware (Python-faithful) operation variants -/

/-- The runtime errors the engine can raise, named after the spec's
taxonomy.  `typeMismatch` is Python's `TypeError` (non-numeric operand),
`invalidOperation` is the `AssertionError` of `__pow__`'s
`assert isinstance(other, (int, float))`, and `zeroDivision` is
Python's `ZeroDivisionError` on `0 ** negative`. -/
inductive PyError : Type
  | typeMismatch : PyError
  | invalidOperation : PyError
  | zeroDivision : PyError
  deriving DecidableEq, Repr

/-- An argument handed to a binary operator: an existing graph node, a
numeric scalar (to be lifted by `Value(other)`), or a non-numeric
Python object such as a string. -/
inductive PyOperand : Type
  | node : ℕ → PyOperand
  | num : ℚ → PyOperand
  | nonNumeric : PyOperand

/-- The exponent argument of `__pow__`: a plain number or (misuse) a
graph node. -/
inductive PowExp : Type
  | num : ℤ → PowExp
  | node : ℕ → PowExp

/-- `Value.__add__` with Python's operand handling: a `Value` operand is
used directly, a number is lifted to a fresh leaf by `Value(other)`, and
any other object makes `self.data + other.data` raise `TypeError`
immediately inside the call. -/
def addPy (g : Graph) (i : ℕ) : PyOperand → Except PyError (Graph × ℕ)
  | .node j => .ok (addOp g i j)
  | .num c => .ok (let r := mkValue g c; addOp r.1 i r.2)
  | .nonNumeric => .error .typeMismatch

/-- `Value.__mul__` with Python's operand handling (same pattern as
`addPy`). -/
def mulPy (g : Graph) (i : ℕ) : PyOperand → Except PyError (Graph × ℕ)
  | .node j => .ok (mulOp g i j)
  | .num c => .ok (let r := mkValue g c; mulOp r.1 i r.2)
  | .nonNumeric => .error .typeMismatch

/-- `Value.__pow__` with Python's error behaviour: a `Value` exponent
fails the `assert isinstance(other, (int, float))` (the spec's
`InvalidOperation`), and `0 ** p` for negative `p` raises
`ZeroDivisionError` while computing `self.data**other`. -/
def powPy (g : Graph) (i : ℕ) : PowExp → Except PyError (Graph × ℕ)
  | .node _ => .error .invalidOperation
  | .num p =>
    if dataAt g i = 0 ∧ p < 0 then .error .zeroDivision else .ok (powOp g i p)

/-- `Value.__truediv__`: `self * other**-1`, with `other**-1` raising
`ZeroDivisionError` when `other.data == 0`. -/
def divPy (g : Graph) (i j : ℕ) : Except PyError (Graph × ℕ) :=
  (powPy g j (.num (-1))).map fun r => mulOp r.1 i r.2

/-! ### The backward pass -/

/-- In-place `nd.grad += v` on node `i` (no-op on an unallocated index,
which never happens for well-formed graphs). -/
def addGrad (g : Graph) (i : ℕ) (v : ℚ) : Graph :=
  match g[i]? with
  | some nd => List.set g i { nd with grad := nd.grad + v }
  | none => g

/-- In-place `nd.grad = v` on node `i` (used for the root seed
`self.grad = 1`). -/
def setGrad (g : Graph) (i : ℕ) (v : ℚ) : Graph :=
  match g[i]? with
  | some nd => List.set g i { nd with grad := v }
  | none => g

/-- The `_backward` closure of node `u`, interpreted from its stored
operation record; each branch is the body of the corresponding Python
closure, statement by statement (each `x.grad += e` reads the current
state left behind by the previous statement). -/
def stepBackward (g : Graph) (u : ℕ) : Graph :=
  match opAt g u with
  | .leaf => g
  | .add a b =>
    let g1 := addGrad g a (gradAt g u)
    addGrad g1 b (gradAt g1 u)
  | .mul a b =>
    let g1 := addGrad g a (dataAt g b * gradAt g u)
    addGrad g1 b (dataAt g1 a * gradAt g1 u)
  | .pow a p => addGrad g a (((p : ℚ) * dataAt g a ^ (p - 1)) * gradAt g u)
  | .relu a => addGrad g a ((if 0 < dataAt g u then (1 : ℚ) else 0) * gradAt g u)

/-- The recursive `build_topo` of `Value.backward`, made total with a
fuel argument (any `fuel > v` is enough on a well-formed graph, because
operand indices strictly decrease).  State is `(visited, topo)`. -/
def buildTopo (g : Graph) : ℕ → ℕ → List ℕ × List ℕ → List ℕ × List ℕ
  | 0, _, s => s
  | fuel + 1, v, s =>
    if v ∈ s.1 then s
    else
      let s1 := (prevList g v).foldl (fun t c => buildTopo g fuel c t) (v :: s.1, s.2)
      (s1.1, s1.2 ++ [v])

/-- The topological order `topo` computed by `Value.backward` starting
from root `r`. -/
def topoList (g : Graph) (r : ℕ) : List ℕ := (buildTopo g (r + 1) r ([], [])).2

/-- The loop `for v in order: v._backward()`. -/
def applyRules (g : Graph) (order : List ℕ) : Graph := order.foldl stepBackward g

/-- `Value.backward`: build the topological order, seed
`self.grad = 1`, then run every recorded `_backward` in reverse
topological order. -/
def Value.backward (g : Graph) (r : ℕ) : Graph :=
  applyRules (setGrad g r 1) (topoList g r).reverse

/-- Error-aware `_backward` of node `u`: the `pow` rule evaluates
`self.data**(other-1)`, which raises `ZeroDivisionError` in Python when
`self.data == 0` and `other - 1 < 0`; every other rule is total. -/
def stepBackwardE (g : Graph) (u : ℕ) : Except PyError Graph :=
  match opAt g u with
  | .pow a p =>
    if dataAt g a = 0 ∧ p - 1 < 0 then .error .zeroDivision
    else .ok (stepBackward g u)
  | _ => .ok (stepBackward g u)

/-- Error-aware `Value.backward`: runs the reverse-order rule loop,
propagating the first error a `_backward` raises. -/
def backwardE (g : Graph) (r : ℕ) : Except PyError Graph :=
  (topoList g r).reverse.foldlM stepBackwardE (setGrad g r 1)

/-! ### The analytic derivative (the specification side)

`analyticDeriv g n j` is the exact analytic partial derivative
`∂ value(j) / ∂ value(n)` obtained by symbolic differentiation: it is the
chain-rule composition of the calculus derivatives of the supported
operations (spec §4.1: `d(a+b)/da = 1`, `d(a*b)/da = b`,
`d(a**p)/da = p*a**(p-1)`, `d relu(a)/da = [out > 0]`, the last being
the spec's pinned subgradient choice at the kink).  It is defined by the
forward recurrence on the node index, with fuel for totality. -/

/-- Fuel-based chain-rule derivative `∂ value(j) / ∂ value(n)`. -/
def pdAux (g : Graph) (n : ℕ) : ℕ → ℕ → ℚ
  | 0, _ => 0
  | fuel + 1, j =>
    if j = n then 1
    else
      match opAt g j with
      | .leaf => 0
      | .add a b => pdAux g n fuel a + pdAux g n fuel b
      | .mul a b => dataAt g b * pdAux g n fuel a + dataAt g a * pdAux g n fuel b
      | .pow a p => ((p : ℚ) * dataAt g a ^ (p - 1)) * pdAux g n fuel a
      | .relu a => (if 0 < dataAt g j then (1 : ℚ) else 0) * pdAux g n fuel a

/-- The exact analytic partial derivative `∂ value(j) / ∂ value(n)`. -/
def analyticDeriv (g : Graph) (n j : ℕ) : ℚ := pdAux g n (j + 1) j

/-- Total first-order coefficient with which the `_backward` rule of
node `x` contributes the gradient of `x` into the gradient of `n`
(summed over the occurrences of `n` among `x`'s operands). -/
def coeffSum (g : Graph) (x n : ℕ) : ℚ :=
  match opAt g x with
  | .leaf => 0
  | .add a b => (if a = n then 1 else 0) + (if b = n then 1 else 0)
  | .mul a b =>
    (if a = n then dataAt g b else 0) + (if b = n then dataAt g a else 0)
  | .pow a p => if a = n then (p : ℚ) * dataAt g a ^ (p - 1) else 0
  | .relu a => if a = n then (if 0 < dataAt g x then (1 : ℚ) else 0) else 0

/-- The chain-rule seed: `d(root)/d(root) = 1`. -/
def seed (r n : ℕ) : ℚ := if n = r then 1 else 0

/-- Two graphs with the same allocated length, data and operation
records — i.e. equal up to `grad` fields.  The backward pass only moves
within one `sameShape` class of its input. -/
def sameShape (h g : Graph) : Prop :=
  glen h = glen g ∧ ∀ i, dataAt h i = dataAt g i ∧ opAt h i = opAt g i

/-! ### Basic facts about the accessors and the gradient updates -/

lemma opAt_of_le (g : Graph) (i : ℕ) (h : glen g ≤ i) : opAt g i = .leaf := by
  simp [opAt, List.getElem?_eq_none h]

lemma gradAt_of_le (g : Graph) (i : ℕ) (h : glen g ≤ i) : gradAt g i = 0 := by
  simp [gradAt, List.getElem?_eq_none h]

lemma lt_of_opAt_ne_leaf {g : Graph} {i : ℕ} (h : opAt g i ≠ .leaf) : i < glen g := by
  by_contra hc
  exact h (opAt_of_le g i (le_of_not_lt hc))

lemma prevList_of_le (g : Graph) (i : ℕ) (h : glen g ≤ i) : prevList g i = [] := by
  simp [prevList, opAt_of_le g i h, Op.args]

lemma mem_prevList_iff {g : Graph} {i j : ℕ} :
    j ∈ prevList g i ↔ j ∈ (opAt g i).args := List.mem_dedup

/-- On any graph (allocated or not), a well-formed graph's operand edges
strictly decrease. -/
lemma WF.lt {g : Graph} (hwf : WF g) {i j : ℕ} (hj : j ∈ prevList g i) : j < i := by
  rcases lt_or_le i (glen g) with hi | hi
  · exact hwf i hi j hj
  · rw [prevList_of_le g i hi] at hj
    cases hj

lemma WF.args_lt {g : Graph} (hwf : WF g) {i j : ℕ} (hj : j ∈ (opAt g i).args) :
    j < i := hwf.lt (mem_prevList_iff.2 hj)

/-- A node is never its own operand in a well-formed graph. -/
lemma WF.not_self_arg {g : Graph} (hwf : WF g) {i : ℕ} (h : i ∈ (opAt g i).args) :
    False := lt_irrefl i (hwf.args_lt h)

lemma glen_addGrad (g : Graph) (i : ℕ) (v : ℚ) : glen (addGrad g i v) = glen g := by
  unfold addGrad
  cases h : g[i]? <;> simp [glen]

lemma glen_setGrad (g : Graph) (i : ℕ) (v : ℚ) : glen (setGrad g i v) = glen g := by
  unfold setGrad
  cases h : g[i]? <;> simp [glen]

lemma dataAt_addGrad (g : Graph) (i : ℕ) (v : ℚ) (n : ℕ) :
    dataAt (addGrad g i v) n = dataAt g n := by
  unfold addGrad
  cases h : g[i]? with
  | none => rfl
  | some nd =>
    rcases eq_or_ne n i with rfl | hne
    · have hlt : n < g.length := (List.getElem?_eq_some.1 h).1
      have hnd : g[n] = nd := (List.getElem?_eq_some.1 h).2
      simp [dataAt, List.getElem?_set_eq_of_lt _ hlt, hnd, h]
    · simp [dataAt, List.getElem?_set_ne (Ne.symm hne)]

lemma opAt_addGrad (g : Graph) (i : ℕ) (v : ℚ) (n : ℕ) :
    opAt (addGrad g i v) n = opAt g n := by
  unfold addGrad
  cases h : g[i]? with
  | none => rfl
  | some nd =>
    rcases eq_or_ne n i with rfl | hne
    · have hlt : n < g.length := (List.getElem?_eq_some.1 h).1
      have hnd : g[n] = nd := (List.getElem?_eq_some.1 h).2
      simp [opAt, List.getElem?_set_eq_of_lt _ hlt, hnd, h]
    · simp [opAt, List.getElem?_set_ne (Ne.symm hne)]

lemma gradAt_addGrad_self (g : Graph) (i : ℕ) (v : ℚ) (hi : i < glen g) :
    gradAt (addGrad g i v) i = gradAt g i + v := by
  unfold addGrad
  rw [List.getElem?_eq_getElem hi]
  simp [gradAt, List.getElem?_set_eq_of_lt _ hi, List.getElem?_eq_getElem hi]

lemma gradAt_addGrad_ne (g : Graph) (i : ℕ) (v : ℚ) (n : ℕ) (hne : n ≠ i) :
    gradAt (addGrad g i v) n = gradAt g n := by
  unfold addGrad
  cases h : g[i]? with
  | none => rfl
  | some nd => simp [gradAt, List.getElem?_set_ne (Ne.symm hne)]

lemma addGrad_of_le (g : Graph) (i : ℕ) (v : ℚ) (hi : glen g ≤ i) :
    addGrad g i v = g := by
  unfold addGrad
  rw [List.getElem?_eq_none hi]

lemma dataAt_setGrad (g : Graph) (i : ℕ) (v : ℚ) (n : ℕ) :
    dataAt (setGrad g i v) n = dataAt g n := by
  unfold setGrad
  cases h : g[i]? with
  | none => rfl
  | some nd =>
    rcases eq_or_ne n i with rfl | hne
    · have hlt : n < g.length := (List.getElem?_eq_some.1 h).1
      have hnd : g[n] = nd := (List.getElem?_eq_some.1 h).2
      simp [dataAt, List.getElem?_set_eq_of_lt _ hlt, hnd, h]
    · simp [dataAt, List.getElem?_set_ne (Ne.symm hne)]

lemma opAt_setGrad (g : Graph) (i : ℕ) (v : ℚ) (n : ℕ) :
    opAt (setGrad g i v) n = opAt g n := by
  unfold setGrad
  cases h : g[i]? with
  | none => rfl
  | some nd =>
    rcases eq_or_ne n i with rfl | hne
    · have hlt : n < g.length := (List.getElem?_eq_some.1 h).1
      have hnd : g[n] = nd := (List.getElem?_eq_some.1 h).2
      simp [opAt, List.getElem?_set_eq_of_lt _ hlt, hnd, h]
    · simp [opAt, List.getElem?_set_ne (Ne.symm hne)]

lemma gradAt_setGrad_self (g : Graph) (i : ℕ) (v : ℚ) (hi : i < glen g) :
    gradAt (setGrad g i v) i = v := by
  unfold setGrad
  rw [List.getElem?_eq_getElem hi]
  simp [gradAt, List.getElem?_set_eq_of_lt _ hi]

lemma gradAt_setGrad_ne (g : Graph) (i : ℕ) (v : ℚ) (n : ℕ) (hne : n ≠ i) :
    gradAt (setGrad g i v) n = gradAt g n := by
  unfold setGrad
  cases h : g[i]? with
  | none => rfl
  | some nd => simp [gradAt, List.getElem?_set_ne (Ne.symm hne)]

/-! ### Shape preservation and the effect of one backward step -/

lemma sameShape_rfl (g : Graph) : sameShape g g := ⟨rfl, fun _ => ⟨rfl, rfl⟩⟩

lemma sameShape_trans {a b c : Graph} (h1 : sameShape a b) (h2 : sameShape b c) :
    sameShape a c :=
  ⟨h1.1.trans h2.1, fun i =>
    ⟨(h1.2 i).1.trans (h2.2 i).1, (h1.2 i).2.trans (h2.2 i).2⟩⟩

lemma sameShape_addGrad (g : Graph) (i : ℕ) (v : ℚ) : sameShape (addGrad g i v) g :=
  ⟨glen_addGrad g i v, fun n => ⟨dataAt_addGrad g i v n, opAt_addGrad g i v n⟩⟩

lemma sameShape_setGrad (g : Graph) (i : ℕ) (v : ℚ) : sameShape (setGrad g i v) g :=
  ⟨glen_setGrad g i v, fun n => ⟨dataAt_setGrad g i v n, opAt_setGrad g i v n⟩⟩

lemma sameShape_stepBackward (h : Graph) (u : ℕ) : sameShape (stepBackward h u) h := by
  unfold stepBackward
  cases hop : opAt h u with
  | leaf => exact sameShape_rfl h
  | add a b =>
    exact sameShape_trans (sameShape_addGrad _ _ _) (sameShape_addGrad _ _ _)
  | mul a b =>
    exact sameShape_trans (sameShape_addGrad _ _ _) (sameShape_addGrad _ _ _)
  | pow a p => exact sameShape_addGrad _ _ _
  | relu a => exact sameShape_addGrad _ _ _

lemma sameShape_applyRules (h : Graph) (L : List ℕ) :
    sameShape (applyRules h L) h := by
  induction L generalizing h with
  | nil => exact sameShape_rfl h
  | cons u rest ih =>
    exact sameShape_trans (ih (stepBackward h u)) (sameShape_stepBackward h u)

lemma applyRules_cons (h : Graph) (u : ℕ) (rest : List ℕ) :
    applyRules h (u :: rest) = applyRules (stepBackward h u) rest := rfl

lemma applyRules_append (h : Graph) (L1 L2 : List ℕ) :
    applyRules h (L1 ++ L2) = applyRules (applyRules h L1) L2 := by
  simp [applyRules, List.foldl_append]

/-- Combined form of the `addGrad` gradient effect. -/
lemma gradAt_addGrad (g : Graph) (i : ℕ) (v : ℚ) (n : ℕ) (hi : i < glen g) :
    gradAt (addGrad g i v) n = gradAt g n + if n = i then v else 0 := by
  rcases eq_or_ne n i with rfl | hne
  · simp [gradAt_addGrad_self g n v hi]
  · simp [gradAt_addGrad_ne g i v n hne, hne]

lemma coeffSum_of_not_arg (g : Graph) {x n : ℕ} (h : n ∉ (opAt g x).args) :
    coeffSum g x n = 0 := by
  unfold coeffSum
  cases hop : opAt g x with
  | leaf => rfl
  | add a b =>
    rw [hop] at h
    simp only [Op.args, List.mem_cons] at h
    push_neg at h
    simp [Ne.symm h.1, Ne.symm h.2.1]
  | mul a b =>
    rw [hop] at h
    simp only [Op.args, List.mem_cons] at h
    push_neg at h
    simp [Ne.symm h.1, Ne.symm h.2.1]
  | pow a p =>
    rw [hop] at h
    simp only [Op.args, List.mem_cons, List.not_mem_nil, or_false] at h
    simp [Ne.symm h]
  | relu a =>
    rw [hop] at h
    simp only [Op.args, List.mem_cons, List.not_mem_nil, or_false] at h
    simp [Ne.symm h]

lemma coeffSum_self {g : Graph} (hwf : WF g) (x : ℕ) : coeffSum g x x = 0 :=
  coeffSum_of_not_arg g fun h => hwf.not_self_arg h

/-- Effect of running the `_backward` closure of node `u` on the
gradient of node `n`: it adds the first-order coefficient of `n` in
`u`'s rule, times `u`'s current gradient. -/
lemma gradAt_stepBackward {g : Graph} (hwf : WF g) {h : Graph}
    (hsh : sameShape h g) (u n : ℕ) :
    gradAt (stepBackward h u) n = gradAt h n + coeffSum g u n * gradAt h u := by
  have hope : opAt h u = opAt g u := (hsh.2 u).2
  have hdata : ∀ i, dataAt h i = dataAt g i := fun i => (hsh.2 i).1
  have hlen : glen h = glen g := hsh.1
  cases hop : opAt g u with
  | leaf =>
    simp [stepBackward, hope, hop, coeffSum]
  | add a b =>
    have hu : u < glen g := lt_of_opAt_ne_leaf (by rw [hop]; simp)
    have ha : a < u := hwf.args_lt (by rw [hop]; simp [Op.args])
    have hb : b < u := hwf.args_lt (by rw [hop]; simp [Op.args])
    have ha' : a < glen h := by rw [hlen]; exact ha.trans hu
    have hb' : b < glen h := by rw [hlen]; exact hb.trans hu
    have hb'' : b < glen (addGrad h a (gradAt h u)) := by rwa [glen_addGrad]
    simp only [stepBackward, hope, hop, coeffSum]
    rw [gradAt_addGrad _ _ _ _ hb'', gradAt_addGrad _ _ _ _ ha',
      gradAt_addGrad _ _ _ _ ha']
    split_ifs <;> first | ring1 | (exfalso; omega)
  | mul a b =>
    have hu : u < glen g := lt_of_opAt_ne_leaf (by rw [hop]; simp)
    have ha : a < u := hwf.args_lt (by rw [hop]; simp [Op.args])
    have hb : b < u := hwf.args_lt (by rw [hop]; simp [Op.args])
    have ha' : a < glen h := by rw [hlen]; exact ha.trans hu
    have hb' : b < glen h := by rw [hlen]; exact hb.trans hu
    have hb'' : b < glen (addGrad h a (dataAt h b * gradAt h u)) := by
      rwa [glen_addGrad]
    simp only [stepBackward, hope, hop, coeffSum]
    rw [gradAt_addGrad _ _ _ _ hb'', gradAt_addGrad _ _ _ _ ha',
      gradAt_addGrad _ _ _ _ ha']
    simp only [dataAt_addGrad, hdata a, hdata b]
    split_ifs <;> first | ring1 | (exfalso; omega)
  | pow a p =>
    have hu : u < glen g := lt_of_opAt_ne_leaf (by rw [hop]; simp)
    have ha : a < u := hwf.args_lt (by rw [hop]; simp [Op.args])
    have ha' : a < glen h := by rw [hlen]; exact ha.trans hu
    simp only [stepBackward, hope, hop, coeffSum]
    rw [gradAt_addGrad _ _ _ _ ha', hdata a]
    split_ifs <;> first | ring1 | (exfalso; omega)
  | relu a =>
    have hu : u < glen g := lt_of_opAt_ne_leaf (by rw [hop]; simp)
    have ha : a < u := hwf.args_lt (by rw [hop]; simp [Op.args])
    have ha' : a < glen h := by rw [hlen]; exact ha.trans hu
    simp only [stepBackward, hope, hop, coeffSum]
    rw [gradAt_addGrad _ _ _ _ ha', hdata u]
    split_ifs <;> first | ring1 | (exfalso; omega)

/-! ### Facts about the analytic derivative -/

lemma pdAux_congr {g : Graph} (hwf : WF g) (n : ℕ) :
    ∀ j f1 f2, j < f1 → j < f2 → pdAux g n f1 j = pdAux g n f2 j := by
  intro j
  induction j using Nat.strong_induction_on with
  | _ j ih =>
    intro f1 f2 h1 h2
    cases f1 with
    | zero => omega
    | succ fa =>
      cases f2 with
      | zero => omega
      | succ fb =>
        by_cases hjn : j = n
        · simp [pdAux, hjn]
        · cases hop : opAt g j with
          | leaf => simp [pdAux, hjn, hop]
          | add a b =>
            have ha : a < j := hwf.args_lt (by rw [hop]; simp [Op.args])
            have hb : b < j := hwf.args_lt (by rw [hop]; simp [Op.args])
            simp only [pdAux, hjn, if_false, hop]
            rw [ih a ha fa fb (by omega) (by omega),
              ih b hb fa fb (by omega) (by omega)]
          | mul a b =>
            have ha : a < j := hwf.args_lt (by rw [hop]; simp [Op.args])
            have hb : b < j := hwf.args_lt (by rw [hop]; simp [Op.args])
            simp only [pdAux, hjn, if_false, hop]
            rw [ih a ha fa fb (by omega) (by omega),
              ih b hb fa fb (by omega) (by omega)]
          | pow a p =>
            have ha : a < j := hwf.args_lt (by rw [hop]; simp [Op.args])
            simp only [pdAux, hjn, if_false, hop]
            rw [ih a ha fa fb (by omega) (by omega)]
          | relu a =>
            have ha : a < j := hwf.args_lt (by rw [hop]; simp [Op.args])
            simp only [pdAux, hjn, if_false, hop]
            rw [ih a ha fa fb (by omega) (by omega)]

lemma analyticDeriv_self (g : Graph) (n : ℕ) : analyticDeriv g n n = 1 := by
  simp [analyticDeriv, pdAux]

lemma analyticDeriv_leaf {g : Graph} {n j : ℕ} (hjn : j ≠ n)
    (hop : opAt g j = .leaf) : analyticDeriv g n j = 0 := by
  simp [analyticDeriv, pdAux, hjn, hop]

lemma analyticDeriv_add {g : Graph} (hwf : WF g) {n j a b : ℕ} (hjn : j ≠ n)
    (hop : opAt g j = .add a b) :
    analyticDeriv g n j = analyticDeriv g n a + analyticDeriv g n b := by
  have ha : a < j := hwf.args_lt (by rw [hop]; simp [Op.args])
  have hb : b < j := hwf.args_lt (by rw [hop]; simp [Op.args])
  have h1 : analyticDeriv g n j = pdAux g n j a + pdAux g n j b := by
    unfold analyticDeriv
    rw [pdAux, if_neg hjn, hop]
  rw [h1, pdAux_congr hwf n a j (a + 1) (by omega) (by omega),
    pdAux_congr hwf n b j (b + 1) (by omega) (by omega)]
  rfl

lemma analyticDeriv_mul {g : Graph} (hwf : WF g) {n j a b : ℕ} (hjn : j ≠ n)
    (hop : opAt g j = .mul a b) :
    analyticDeriv g n j =
      dataAt g b * analyticDeriv g n a + dataAt g a * analyticDeriv g n b := by
  have ha : a < j := hwf.args_lt (by rw [hop]; simp [Op.args])
  have hb : b < j := hwf.args_lt (by rw [hop]; simp [Op.args])
  have h1 : analyticDeriv g n j =
      dataAt g b * pdAux g n j a + dataAt g a * pdAux g n j b := by
    unfold analyticDeriv
    rw [pdAux, if_neg hjn, hop]
  rw [h1, pdAux_congr hwf n a j (a + 1) (by omega) (by omega),
    pdAux_congr hwf n b j (b + 1) (by omega) (by omega)]
  rfl

lemma analyticDeriv_pow {g : Graph} (hwf : WF g) {n j a : ℕ} {p : ℤ}
    (hjn : j ≠ n) (hop : opAt g j = .pow a p) :
    analyticDeriv g n j =
      ((p : ℚ) * dataAt g a ^ (p - 1)) * analyticDeriv g n a := by
  have ha : a < j := hwf.args_lt (by rw [hop]; simp [Op.args])
  have h1 : analyticDeriv g n j =
      ((p : ℚ) * dataAt g a ^ (p - 1)) * pdAux g n j a := by
    unfold analyticDeriv
    rw [pdAux, if_neg hjn, hop]
  rw [h1, pdAux_congr hwf n a j (a + 1) (by omega) (by omega)]
  rfl

lemma analyticDeriv_relu {g : Graph} (hwf : WF g) {n j a : ℕ} (hjn : j ≠ n)
    (hop : opAt g j = .relu a) :
    analyticDeriv g n j =
      (if 0 < dataAt g j then (1 : ℚ) else 0) * analyticDeriv g n a := by
  have ha : a < j := hwf.args_lt (by rw [hop]; simp [Op.args])
  have h1 : analyticDeriv g n j =
      (if 0 < dataAt g j then (1 : ℚ) else 0) * pdAux g n j a := by
    unfold analyticDeriv
    rw [pdAux, if_neg hjn, hop]
  rw [h1, pdAux_congr hwf n a j (a + 1) (by omega) (by omega)]
  rfl

/-- The derivative of an earlier node with respect to a later one is 0
(a node cannot depend on a later allocation). -/
lemma pdAux_of_lt {g : Graph} (hwf : WF g) (x : ℕ) :
    ∀ fuel j, j < x → pdAux g x fuel j = 0 := by
  intro fuel
  induction fuel with
  | zero => intro j hj; rfl
  | succ f ih =>
    intro j hj
    cases hop : opAt g j with
    | leaf =>
      have hne : j ≠ x := by omega
      simp [pdAux, hop, hne]
    | add a b =>
      have ha : a < j := hwf.args_lt (by rw [hop]; simp [Op.args])
      have hb : b < j := hwf.args_lt (by rw [hop]; simp [Op.args])
      simp only [pdAux, hop]
      rw [if_neg (by omega), ih a (by omega), ih b (by omega)]
      ring
    | mul a b =>
      have ha : a < j := hwf.args_lt (by rw [hop]; simp [Op.args])
      have hb : b < j := hwf.args_lt (by rw [hop]; simp [Op.args])
      simp only [pdAux, hop]
      rw [if_neg (by omega), ih a (by omega), ih b (by omega)]
      ring
    | pow a p =>
      have ha : a < j := hwf.args_lt (by rw [hop]; simp [Op.args])
      simp only [pdAux, hop]
      rw [if_neg (by omega), ih a (by omega)]
      ring
    | relu a =>
      have ha : a < j := hwf.args_lt (by rw [hop]; simp [Op.args])
      simp only [pdAux, hop]
      rw [if_neg (by omega), ih a (by omega)]
      ring

lemma analyticDeriv_of_lt {g : Graph} (hwf : WF g) {x j : ℕ} (h : j < x) :
    analyticDeriv g x j = 0 := pdAux_of_lt hwf x (j + 1) j h

/-- The derivative with respect to an unreachable node is 0. -/
lemma pdAux_of_not_reaches {g : Graph} (x : ℕ) :
    ∀ fuel j, ¬ Reaches g j x → pdAux g x fuel j = 0 := by
  intro fuel
  induction fuel with
  | zero => intro j hj; rfl
  | succ f ih =>
    intro j hj
    have hjx : j ≠ x := fun h => hj (h ▸ Relation.ReflTransGen.refl)
    have hstep : ∀ a, a ∈ (opAt g j).args → ¬ Reaches g a x := by
      intro a ha hax
      exact hj (Relation.ReflTransGen.head (mem_prevList_iff.2 ha) hax)
    cases hop : opAt g j with
    | leaf => simp [pdAux, hop, hjx]
    | add a b =>
      simp only [pdAux, hop]
      rw [if_neg hjx, ih a (hstep a (by rw [hop]; simp [Op.args])),
        ih b (hstep b (by rw [hop]; simp [Op.args]))]
      ring
    | mul a b =>
      simp only [pdAux, hop]
      rw [if_neg hjx, ih a (hstep a (by rw [hop]; simp [Op.args])),
        ih b (hstep b (by rw [hop]; simp [Op.args]))]
      ring
    | pow a p =>
      simp only [pdAux, hop]
      rw [if_neg hjx, ih a (hstep a (by rw [hop]; simp [Op.args]))]
      ring
    | relu a =>
      simp only [pdAux, hop]
      rw [if_neg hjx, ih a (hstep a (by rw [hop]; simp [Op.args]))]
      ring

lemma analyticDeriv_of_not_reaches {g : Graph} {x j : ℕ}
    (h : ¬ Reaches g j x) : analyticDeriv g x j = 0 :=
  pdAux_of_not_reaches x (j + 1) j h

/-- Transposition of the chain rule: the forward (tangent) recurrence
defining `analyticDeriv` equals the backward (adjoint) recurrence that
sums, over every possible parent `x`, the coefficient of `n` in `x`'s
local rule times the derivative of `j` with respect to `x`. -/
lemma analyticDeriv_transpose {g : Graph} (hwf : WF g) :
    ∀ j n, n ≠ j →
      analyticDeriv g n j =
        ∑ x ∈ Finset.range (j + 1), coeffSum g x n * analyticDeriv g x j := by
  intro j
  induction j using Nat.strong_induction_on with
  | _ j ih =>
    intro n hnj
    have inner : ∀ c, c < j →
        (∑ x ∈ Finset.range j, coeffSum g x n * analyticDeriv g x c)
          = if c = n then 0 else analyticDeriv g n c := by
      intro c hc
      have hshrink :
          (∑ x ∈ Finset.range (c + 1), coeffSum g x n * analyticDeriv g x c)
            = ∑ x ∈ Finset.range j, coeffSum g x n * analyticDeriv g x c := by
        apply Finset.sum_subset (Finset.range_subset.2 (by omega))
        intro x hx hnx
        simp only [Finset.mem_range] at hx hnx
        rw [analyticDeriv_of_lt hwf (by omega)]
        ring
      rw [← hshrink]
      by_cases hcn : c = n
      · subst hcn
        rw [if_pos rfl]
        apply Finset.sum_eq_zero
        intro x hx
        simp only [Finset.mem_range] at hx
        rcases eq_or_ne x c with rfl | hxc
        · rw [coeffSum_self hwf]
          ring
        · have hxlt : x < c := by omega
          rw [coeffSum_of_not_arg g
            (fun hmem => absurd (hwf.args_lt hmem) (by omega))]
          ring
      · rw [if_neg hcn, ih c hc n (Ne.symm hcn)]
    rw [Finset.range_succ, Finset.sum_insert Finset.not_mem_range_self]
    cases hop : opAt g j with
    | leaf =>
      rw [analyticDeriv_leaf (Ne.symm hnj) hop]
      have hz : ∀ x ∈ Finset.range j,
          coeffSum g x n * analyticDeriv g x j = 0 := by
        intro x hx
        simp only [Finset.mem_range] at hx
        rw [analyticDeriv_leaf (by omega) hop]
        ring
      rw [Finset.sum_eq_zero hz]
      simp [coeffSum, hop]
    | add a b =>
      have ha : a < j := hwf.args_lt (by rw [hop]; simp [Op.args])
      have hb : b < j := hwf.args_lt (by rw [hop]; simp [Op.args])
      have hsplit : ∀ x ∈ Finset.range j,
          coeffSum g x n * analyticDeriv g x j
            = coeffSum g x n * analyticDeriv g x a
              + coeffSum g x n * analyticDeriv g x b := by
        intro x hx
        simp only [Finset.mem_range] at hx
        rw [analyticDeriv_add hwf (by omega) hop]
        ring
      rw [Finset.sum_congr rfl hsplit, Finset.sum_add_distrib, inner a ha,
        inner b hb, analyticDeriv_add hwf (Ne.symm hnj) hop,
        analyticDeriv_self]
      simp only [coeffSum, hop]
      by_cases han : a = n <;> by_cases hbn : b = n <;>
        simp [han, hbn, analyticDeriv_self] <;> ring1
    | mul a b =>
      have ha : a < j := hwf.args_lt (by rw [hop]; simp [Op.args])
      have hb : b < j := hwf.args_lt (by rw [hop]; simp [Op.args])
      have hsplit : ∀ x ∈ Finset.range j,
          coeffSum g x n * analyticDeriv g x j
            = dataAt g b * (coeffSum g x n * analyticDeriv g x a)
              + dataAt g a * (coeffSum g x n * analyticDeriv g x b) := by
        intro x hx
        simp only [Finset.mem_range] at hx
        rw [analyticDeriv_mul hwf (by omega) hop]
        ring
      rw [Finset.sum_congr rfl hsplit, Finset.sum_add_distrib,
        ← Finset.mul_sum, ← Finset.mul_sum, inner a ha, inner b hb,
        analyticDeriv_mul hwf (Ne.symm hnj) hop, analyticDeriv_self]
      simp only [coeffSum, hop]
      by_cases han : a = n <;> by_cases hbn : b = n <;>
        simp [han, hbn, analyticDeriv_self] <;> ring1
    | pow a p =>
      have ha : a < j := hwf.args_lt (by rw [hop]; simp [Op.args])
      have hsplit : ∀ x ∈ Finset.range j,
          coeffSum g x n * analyticDeriv g x j
            = ((p : ℚ) * dataAt g a ^ (p - 1))
              * (coeffSum g x n * analyticDeriv g x a) := by
        intro x hx
        simp only [Finset.mem_range] at hx
        rw [analyticDeriv_pow hwf (by omega) hop]
        ring
      rw [Finset.sum_congr rfl hsplit, ← Finset.mul_sum, inner a ha,
        analyticDeriv_pow hwf (Ne.symm hnj) hop, analyticDeriv_self]
      simp only [coeffSum, hop]
      by_cases han : a = n <;> simp [han, analyticDeriv_self]
    | relu a =>
      have ha : a < j := hwf.args_lt (by rw [hop]; simp [Op.args])
      have hsplit : ∀ x ∈ Finset.range j,
          coeffSum g x n * analyticDeriv g x j
            = (if 0 < dataAt g j then (1 : ℚ) else 0)
              * (coeffSum g x n * analyticDeriv g x a) := by
        intro x hx
        simp only [Finset.mem_range] at hx
        rw [analyticDeriv_relu hwf (by omega) hop]
        ring
      rw [Finset.sum_congr rfl hsplit, ← Finset.mul_sum, inner a ha,
        analyticDeriv_relu hwf (Ne.symm hnj) hop, analyticDeriv_self]
      simp only [coeffSum, hop]
      by_cases han : a = n <;> simp [han, analyticDeriv_self]

/-- The transposed chain-rule sum may range over any bound exceeding the
node index: later nodes contribute nothing. -/
lemma analyticDeriv_transpose_ge {g : Graph} (hwf : WF g) {j n N : ℕ}
    (hnj : n ≠ j) (hN : j < N) :
    analyticDeriv g n j =
      ∑ x ∈ Finset.range N, coeffSum g x n * analyticDeriv g x j := by
  rw [analyticDeriv_transpose hwf j n hnj]
  apply Finset.sum_subset (Finset.range_subset.2 (by omega))
  intro x hx hnx
  simp only [Finset.mem_range] at hx hnx
  rw [analyticDeriv_of_lt hwf (by omega)]
  ring

/-- Key identity: once every parent of `u` that can still contribute is
recorded in `D`, the seed plus `D`'s recorded contributions equals the
analytic derivative of the root with respect to `u`. -/
lemma seed_add_sum_eq {g : Graph} (hwf : WF g) {r u : ℕ} (hr : r < glen g)
    {D : List ℕ} (hnd : D.Nodup) (hDlt : ∀ x ∈ D, x < glen g)
    (hcover : ∀ x, coeffSum g x u ≠ 0 → Reaches g r x → x ∈ D) :
    seed r u + (D.map fun x => coeffSum g x u * analyticDeriv g x r).sum
      = analyticDeriv g u r := by
  have hlist : (D.map fun x => coeffSum g x u * analyticDeriv g x r).sum
      = ∑ x ∈ D.toFinset, coeffSum g x u * analyticDeriv g x r :=
    (List.sum_toFinset _ hnd).symm
  have hext : (∑ x ∈ D.toFinset, coeffSum g x u * analyticDeriv g x r)
      = ∑ x ∈ Finset.range (glen g),
          coeffSum g x u * analyticDeriv g x r := by
    apply Finset.sum_subset
    · intro x hx
      simp only [List.mem_toFinset] at hx
      exact Finset.mem_range.2 (hDlt x hx)
    · intro x hx hnx
      simp only [List.mem_toFinset] at hnx
      by_cases hc : coeffSum g x u = 0
      · rw [hc]
        ring
      · rw [analyticDeriv_of_not_reaches
          (fun hreach => hnx (hcover x hc hreach))]
        ring
  rw [hlist, hext]
  rcases eq_or_ne u r with rfl | hur
  · rw [analyticDeriv_self]
    have hz : ∀ x ∈ Finset.range (glen g),
        coeffSum g x u * analyticDeriv g x u = 0 := by
      intro x hx
      by_cases hc : coeffSum g x u = 0
      · rw [hc]
        ring
      · have hmem : u ∈ (opAt g x).args := by
          by_contra hn
          exact hc (coeffSum_of_not_arg g hn)
        rw [analyticDeriv_of_lt hwf (hwf.args_lt hmem)]
        ring
    rw [Finset.sum_eq_zero hz]
    simp [seed]
  · rw [← analyticDeriv_transpose_ge hwf hur hr]
    simp [seed, hur]

/-- Main invariant of the reverse-order rule loop: starting from a
state whose gradients record the seed plus the contributions of the
already processed prefix `done`, running the remaining `order` extends
the record to `done ++ order`, provided the whole list is
duplicate-free, topologically ordered (no element is an operand of a
later element) and is exactly the set of nodes reachable from `r`. -/
lemma applyRules_invariant {g : Graph} (hwf : WF g) (r : ℕ)
    (hr : r < glen g) :
    ∀ (order done : List ℕ) (h : Graph),
      sameShape h g →
      (done ++ order).Nodup →
      List.Pairwise (fun u x => u ∉ prevList g x) (done ++ order) →
      (∀ x, x ∈ done ++ order ↔ Reaches g r x) →
      (∀ x ∈ done ++ order, x < glen g) →
      (∀ n, gradAt h n
        = seed r n
          + ((done.map fun x => coeffSum g x n * analyticDeriv g x r).sum)) →
      ∀ n, gradAt (applyRules h order) n
        = seed r n
          + (((done ++ order).map
              fun x => coeffSum g x n * analyticDeriv g x r).sum) := by
  intro order
  induction order with
  | nil =>
    intro done h hsh hnd hpw hmem hlt hinv n
    simpa using hinv n
  | cons u rest ih =>
    intro done h hsh hnd hpw hmem hlt hinv n
    rw [applyRules_cons]
    have hcover : ∀ x, coeffSum g x u ≠ 0 → Reaches g r x → x ∈ done := by
      intro x hc hreach
      have hx : x ∈ done ++ u :: rest := (hmem x).2 hreach
      rcases List.mem_append.1 hx with hxd | hxur
      · exact hxd
      · rcases List.mem_cons.1 hxur with rfl | hxr
        · exact absurd (coeffSum_self hwf x) hc
        · have hpw2 : List.Pairwise (fun u x => u ∉ prevList g x) (u :: rest) :=
            (List.pairwise_append.1 hpw).2.1
          have hux : u ∉ prevList g x :=
            (List.pairwise_cons.1 hpw2).1 x hxr
          exact absurd (coeffSum_of_not_arg g
            (fun hmem2 => hux (mem_prevList_iff.2 hmem2))) hc
    have hnd1 : done.Nodup := (List.nodup_append.1 hnd).1
    have hlt1 : ∀ x ∈ done, x < glen g :=
      fun x hx => hlt x (List.mem_append_left _ hx)
    have hgradu : gradAt h u = analyticDeriv g u r := by
      rw [hinv u]
      exact seed_add_sum_eq hwf hr hnd1 hlt1 hcover
    have hinv2 : ∀ m, gradAt (stepBackward h u) m
        = seed r m
          + (((done ++ [u]).map
              fun x => coeffSum g x m * analyticDeriv g x r).sum) := by
      intro m
      rw [gradAt_stepBackward hwf hsh u m, hinv m, hgradu]
      simp only [List.map_append, List.sum_append, List.map_cons,
        List.map_nil, List.sum_cons, List.sum_nil]
      ring
    have hre : (done ++ [u]) ++ rest = done ++ u :: rest := by simp
    have hmain := ih (done ++ [u]) (stepBackward h u)
      (sameShape_trans (sameShape_stepBackward h u) hsh)
      (by rw [hre]; exact hnd)
      (by rw [hre]; exact hpw)
      (by rw [hre]; exact hmem)
      (by rw [hre]; exact hlt)
      hinv2 n
    rw [← hre]
    exact hmain

/-! ### Correctness of the depth-first topological sort -/

/-- Topological soundness of a recorded order: every operand of a
recorded node is recorded strictly earlier (spec §4.2 step 2). -/
def OrdTopo (g : Graph) (topo : List ℕ) : Prop :=
  ∀ n (hn : n < topo.length), ∀ c ∈ prevList g topo[n], c ∈ topo.take n

lemma ordTopo_nil (g : Graph) : OrdTopo g [] := by
  intro n hn
  simp at hn

/-- Appending a node whose operands are all already recorded preserves
topological soundness. -/
lemma ordTopo_push {g : Graph} {topo : List ℕ} (h : OrdTopo g topo) {v : ℕ}
    (hv : ∀ c ∈ prevList g v, c ∈ topo) : OrdTopo g (topo ++ [v]) := by
  intro n hn c hc
  rcases lt_or_ge n topo.length with hlt | hge
  · rw [List.getElem_append_left hlt] at hc
    rw [List.take_append_of_le_length (le_of_lt hlt)]
    exact h n hlt c hc
  · have hlen : (topo ++ [v]).length = topo.length + 1 := by simp
    have hn' : n = topo.length := by omega
    subst hn'
    rw [List.getElem_concat_length _ _ _ rfl] at hc
    rw [List.take_append_of_le_length (le_refl _), List.take_length]
    exact hv c hc

/-- A topologically sound record is closed under operand edges. -/
lemma OrdTopo.closed {g : Graph} {topo : List ℕ} (h : OrdTopo g topo) {x : ℕ}
    (hx : x ∈ topo) {c : ℕ} (hc : c ∈ prevList g x) : c ∈ topo := by
  rcases List.mem_iff_getElem.1 hx with ⟨n, hn, rfl⟩
  exact List.take_subset n topo (h n hn c hc)

/-- Precondition of a `build_topo` call on `v`: the recorded part of
`visited` is sound, and every visited-but-unrecorded node (an ancestor
still on the recursion stack) has index at least `v`. -/
structure DfsIn (g : Graph) (v : ℕ) (vis topo : List ℕ) : Prop where
  sub : ∀ x ∈ topo, x ∈ vis
  stackLB : ∀ y ∈ vis, y ∉ topo → v ≤ y
  nd : topo.Nodup
  ord : OrdTopo g topo

/-- Postcondition of a `build_topo` call on `v`. -/
structure DfsOut (g : Graph) (v : ℕ) (vis topo vis' topo' : List ℕ) : Prop where
  grow : ∃ d, topo' = topo ++ d ∧ ∀ x ∈ d, x ∉ vis ∧ Reaches g v x
  visMono : ∀ x ∈ vis, x ∈ vis'
  topoVis : ∀ x ∈ topo', x ∈ vis'
  visNew : ∀ x ∈ vis', x ∈ vis ∨ x ∈ topo'
  stack : ∀ y ∈ vis', y ∉ topo' → y ∈ vis ∧ y ∉ topo
  selfVis : v ∈ vis'
  nd : topo'.Nodup
  ord : OrdTopo g topo'
  lastSelf : v ∉ vis → ∃ d0, topo' = topo ++ d0 ++ [v]

/-- Postcondition of the children fold inside a `build_topo` call. -/
structure FoldOut (g : Graph) (cs : List ℕ) (vis topo vis' topo' : List ℕ) :
    Prop where
  grow : ∃ d, topo' = topo ++ d ∧ ∀ x ∈ d, x ∉ vis ∧ ∃ c ∈ cs, Reaches g c x
  visMono : ∀ x ∈ vis, x ∈ vis'
  topoVis : ∀ x ∈ topo', x ∈ vis'
  visNew : ∀ x ∈ vis', x ∈ vis ∨ x ∈ topo'
  stack : ∀ y ∈ vis', y ∉ topo' → y ∈ vis ∧ y ∉ topo
  csVis : ∀ c ∈ cs, c ∈ vis'
  nd : topo'.Nodup
  ord : OrdTopo g topo'

/-- Specification of the children fold inside a `build_topo` call,
assuming the specification of recursive calls on smaller nodes. -/
lemma buildTopo_fold {g : Graph} (v f : ℕ)
    (ihv : ∀ c, c < v → ∀ vis topo, DfsIn g c vis topo →
      DfsOut g c vis topo (buildTopo g f c (vis, topo)).1
        (buildTopo g f c (vis, topo)).2) :
    ∀ cs, (∀ c ∈ cs, c < v) → ∀ vis topo,
      (∀ x ∈ topo, x ∈ vis) →
      (∀ y ∈ vis, y ∉ topo → v ≤ y) →
      topo.Nodup → OrdTopo g topo →
      FoldOut g cs vis topo
        (cs.foldl (fun t c => buildTopo g f c t) (vis, topo)).1
        (cs.foldl (fun t c => buildTopo g f c t) (vis, topo)).2 := by
  intro cs
  induction cs with
  | nil =>
    intro _ vis topo h1 h2 h3 h4
    exact {
      grow := ⟨[], by simp, by simp⟩
      visMono := fun x hx => hx
      topoVis := h1
      visNew := fun x hx => Or.inl hx
      stack := fun y hy hyn => ⟨hy, hyn⟩
      csVis := by simp
      nd := h3
      ord := h4 }
  | cons c cs2 ihcs =>
    intro hcs vis topo h1 h2 h3 h4
    have hc : c < v := hcs c (List.mem_cons_self c cs2)
    have hchild := ihv c hc vis topo
      { sub := h1
        stackLB := fun y hy hyn => le_of_lt (lt_of_lt_of_le hc (h2 y hy hyn))
        nd := h3
        ord := h4 }
    have hrest := ihcs (fun x hx => hcs x (List.mem_cons_of_mem c hx))
      (buildTopo g f c (vis, topo)).1
      (buildTopo g f c (vis, topo)).2
      hchild.topoVis
      (fun y hy hyn =>
        h2 y (hchild.stack y hy hyn).1 (hchild.stack y hy hyn).2)
      hchild.nd hchild.ord
    rw [List.foldl_cons]
    obtain ⟨d1, hd1, hd1f⟩ := hchild.grow
    obtain ⟨d2, hd2, hd2f⟩ := hrest.grow
    refine {
      grow := ⟨d1 ++ d2, ?_, ?_⟩
      visMono := fun x hx => hrest.visMono x (hchild.visMono x hx)
      topoVis := hrest.topoVis
      visNew := ?_
      stack := fun y hy hyn =>
        hchild.stack y (hrest.stack y hy hyn).1 (hrest.stack y hy hyn).2
      csVis := ?_
      nd := hrest.nd
      ord := hrest.ord }
    · rw [hd2, hd1, List.append_assoc]
    · intro x hx
      rcases List.mem_append.1 hx with hx1 | hx2
      · exact ⟨(hd1f x hx1).1,
          ⟨c, List.mem_cons_self c cs2, (hd1f x hx1).2⟩⟩
      · refine ⟨fun hxv => (hd2f x hx2).1 (hchild.visMono x hxv), ?_⟩
        obtain ⟨c2, hc2, hre⟩ := (hd2f x hx2).2
        exact ⟨c2, List.mem_cons_of_mem c hc2, hre⟩
    · intro x hx
      rcases hrest.visNew x hx with hx1 | hx2
      · rcases hchild.visNew x hx1 with hxv | hxt
        · exact Or.inl hxv
        · refine Or.inr ?_
          rw [hd2]
          exact List.mem_append_left d2 hxt
      · exact Or.inr hx2
    · intro c2 hc2
      rcases List.mem_cons.1 hc2 with rfl | hc2t
      · exact hrest.visMono c2 hchild.selfVis
      · exact hrest.csVis c2 hc2t

/-- Full specification of the recursive `build_topo` of the source:
fuel is irrelevant as long as it exceeds the node index. -/
lemma buildTopo_spec {g : Graph} (hwf : WF g) :
    ∀ v fuel, v < fuel → ∀ vis topo, DfsIn g v vis topo →
      DfsOut g v vis topo (buildTopo g fuel v (vis, topo)).1
        (buildTopo g fuel v (vis, topo)).2 := by
  intro v
  induction v using Nat.strong_induction_on with
  | _ v ihv =>
    intro fuel hfuel vis topo hin
    cases fuel with
    | zero => omega
    | succ f =>
      by_cases hv : v ∈ vis
      · have hres : buildTopo g (f + 1) v (vis, topo) = (vis, topo) := by
          simp [buildTopo, hv]
        rw [hres]
        exact {
          grow := ⟨[], by simp, by simp⟩
          visMono := fun x hx => hx
          topoVis := hin.sub
          visNew := fun x hx => Or.inl hx
          stack := fun y hy hyn => ⟨hy, hyn⟩
          selfVis := hv
          nd := hin.nd
          ord := hin.ord
          lastSelf := fun hcon => absurd hv hcon }
      · have hih : ∀ c, c < v → ∀ vis2 topo2, DfsIn g c vis2 topo2 →
            DfsOut g c vis2 topo2 (buildTopo g f c (vis2, topo2)).1
              (buildTopo g f c (vis2, topo2)).2 := by
          intro c hc vis2 topo2 hin2
          exact ihv c hc f (by omega) vis2 topo2 hin2
        have hfold := buildTopo_fold v f hih (prevList g v)
          (fun c hc => hwf.lt hc) (v :: vis) topo
          (fun x hx => List.mem_cons_of_mem v (hin.sub x hx))
          (by
            intro y hy hyn
            rcases List.mem_cons.1 hy with rfl | hyv
            · exact le_refl y
            · exact hin.stackLB y hyv hyn)
          hin.nd hin.ord
        have hres : buildTopo g (f + 1) v (vis, topo)
            = (((prevList g v).foldl (fun t c => buildTopo g f c t)
                (v :: vis, topo)).1,
               ((prevList g v).foldl (fun t c => buildTopo g f c t)
                (v :: vis, topo)).2 ++ [v]) := by
          simp [buildTopo, hv]
        rw [hres]
        obtain ⟨d1, hd1, hd1f⟩ := hfold.grow
        have hvnotop : v ∉ (((prevList g v).foldl
            (fun t c => buildTopo g f c t) (v :: vis, topo)).2) := by
          rw [hd1]
          intro hvmem
          rcases List.mem_append.1 hvmem with hvt | hvd
          · exact hv (hin.sub v hvt)
          · exact (hd1f v hvd).1 (List.mem_cons_self v vis)
        have hself : v ∈ ((prevList g v).foldl
            (fun t c => buildTopo g f c t) (v :: vis, topo)).1 :=
          hfold.visMono v (List.mem_cons_self v vis)
        refine {
          grow := ⟨d1 ++ [v], ?_, ?_⟩
          visMono := fun x hx =>
            hfold.visMono x (List.mem_cons_of_mem v hx)
          topoVis := ?_
          visNew := ?_
          stack := ?_
          selfVis := hself
          nd := ?_
          ord := ?_
          lastSelf := fun _ => ⟨d1, by rw [hd1]⟩ }
        · rw [hd1, List.append_assoc]
        · intro x hx
          rcases List.mem_append.1 hx with hx1 | hx2
          · refine ⟨fun hxv => (hd1f x hx1).1 (List.mem_cons_of_mem v hxv), ?_⟩
            obtain ⟨c, hcm, hre⟩ := (hd1f x hx1).2
            exact Relation.ReflTransGen.head hcm hre
          · have hxv : x = v := by simpa using hx2
            subst hxv
            exact ⟨hv, Relation.ReflTransGen.refl⟩
        · intro x hx
          rcases List.mem_append.1 hx with hx1 | hx2
          · exact hfold.topoVis x hx1
          · have hxv : x = v := by simpa using hx2
            subst hxv
            exact hself
        · intro x hx
          rcases hfold.visNew x hx with hx1 | hx2
          · rcases List.mem_cons.1 hx1 with rfl | hxv
            · exact Or.inr (List.mem_append_right _ (List.mem_singleton.2 rfl))
            · exact Or.inl hxv
          · exact Or.inr (List.mem_append_left _ hx2)
        · intro y hy hyn
          have hyt : y ∉ ((prevList g v).foldl
              (fun t c => buildTopo g f c t) (v :: vis, topo)).2 :=
            fun hc => hyn (List.mem_append_left _ hc)
          have hyv : y ≠ v := by
            intro hc
            subst hc
            exact hyn (List.mem_append_right _ (List.mem_singleton.2 rfl))
          have hs := hfold.stack y hy hyt
          rcases List.mem_cons.1 hs.1 with rfl | hyvis
          · exact absurd rfl hyv
          · exact ⟨hyvis, hs.2⟩
        · rw [List.nodup_append]
          refine ⟨hfold.nd, List.nodup_singleton v, ?_⟩
          intro a ha hav
          rw [List.mem_singleton] at hav
          subst hav
          exact hvnotop ha
        · apply ordTopo_push hfold.ord
          intro c hc
          have hclt : c < v := hwf.lt hc
          by_contra hct
          have hs := hfold.stack c (hfold.csVis c hc) hct
          rcases List.mem_cons.1 hs.1 with rfl | hcvis
          · omega
          · exact absurd (hin.stackLB c hcvis hs.2) (by omega)

/-- Along operand edges, indices never increase (well-formed graphs). -/
lemma reaches_le {g : Graph} (hwf : WF g) {a b : ℕ} (h : Reaches g a b) :
    b ≤ a := by
  induction h with
  | refl => exact le_refl a
  | tail hab hbc ih => exact le_of_lt (lt_of_lt_of_le (hwf.lt hbc) ih)

/-- The `build_topo` call of `Value.backward` satisfies the full DFS
postcondition starting from empty `visited` and `topo`. -/
lemma topoList_out {g : Graph} (hwf : WF g) (r : ℕ) :
    DfsOut g r [] [] (buildTopo g (r + 1) r ([], [])).1 (topoList g r) :=
  buildTopo_spec hwf r (r + 1) (Nat.lt_succ_self r) [] []
    { sub := by simp
      stackLB := by simp
      nd := List.nodup_nil
      ord := ordTopo_nil g }

/-- Each node appears at most once in the recorded order. -/
lemma topoList_nodup {g : Graph} (hwf : WF g) (r : ℕ) :
    (topoList g r).Nodup := (topoList_out hwf r).nd

/-- The recorded order is topologically sound. -/
lemma topoList_ord {g : Graph} (hwf : WF g) (r : ℕ) :
    OrdTopo g (topoList g r) := (topoList_out hwf r).ord

/-- Starting from empty state, every visited node ends up recorded. -/
lemma topoList_vis_sub {g : Graph} (hwf : WF g) (r : ℕ) :
    ∀ x ∈ (buildTopo g (r + 1) r ([], [])).1, x ∈ topoList g r := by
  intro x hx
  by_contra hxt
  exact absurd ((topoList_out hwf r).stack x hx hxt).1 (List.not_mem_nil x)

/-- The recorded order contains exactly the nodes reachable from the
root along operand edges. -/
lemma mem_topoList_iff {g : Graph} (hwf : WF g) {r x : ℕ} :
    x ∈ topoList g r ↔ Reaches g r x := by
  constructor
  · intro hx
    obtain ⟨d, hd, hdf⟩ := (topoList_out hwf r).grow
    rw [hd] at hx
    exact (hdf x (by simpa using hx)).2
  · intro hre
    induction hre with
    | refl => exact topoList_vis_sub hwf r r (topoList_out hwf r).selfVis
    | tail hab hbc ih => exact (topoList_ord hwf r).closed ih hbc
  
/-- The root is recorded last. -/
lemma topoList_last {g : Graph} (hwf : WF g) (r : ℕ) :
    ∃ d0, topoList g r = d0 ++ [r] := by
  obtain ⟨d0, hd0⟩ := (topoList_out hwf r).lastSelf (List.not_mem_nil r)
  exact ⟨d0, by simpa using hd0⟩

/-- Every recorded node is a valid index once the root is. -/
lemma mem_topoList_lt {g : Graph} (hwf : WF g) {r x : ℕ} (hr : r < glen g)
    (hx : x ∈ topoList g r) : x < glen g :=
  lt_of_le_of_lt (reaches_le hwf ((mem_topoList_iff hwf).1 hx)) hr

/-- In the reversed recorded order, no node is an operand of a node
that comes after it: parents run before their operands. -/
lemma topoList_reverse_pairwise {g : Graph} (hwf : WF g) (r : ℕ) :
    List.Pairwise (fun u x => u ∉ prevList g x) (topoList g r).reverse := by
  rw [List.pairwise_reverse, List.pairwise_iff_get]
  intro i j hij
  simp only [List.get_eq_getElem]
  intro hmem
  have htake := topoList_ord hwf r i.1 i.2 _ hmem
  rw [List.mem_take_iff_getElem] at htake
  obtain ⟨k, hk, hkj⟩ := htake
  have hnd := topoList_nodup hwf r
  have hkeq : k = j.1 := by
    have hk2 : k < (topoList g r).length := lt_of_lt_of_le hk (min_le_right _ _)
    exact (hnd.getElem_inj_iff).1 hkj
  have hfin : i.1 < j.1 := hij
  omega

/-- Master correctness of `Value.backward`: on a freshly-built
(zero-gradient) well-formed graph, the backward pass from root `r`
leaves in every node reachable from `r` the exact analytic partial
derivative of `r`'s value with respect to that node's value. -/
lemma backward_correct {g : Graph} (hwf : WF g) {r : ℕ} (hr : r < glen g)
    (h0 : ∀ i, gradAt g i = 0) {n : ℕ} (hn : Reaches g r n) :
    gradAt (Value.backward g r) n = analyticDeriv g n r := by
  have hnd : ((topoList g r).reverse).Nodup :=
    List.nodup_reverse.2 (topoList_nodup hwf r)
  have hmem : ∀ x, x ∈ (topoList g r).reverse ↔ Reaches g r x := by
    intro x
    rw [List.mem_reverse]
    exact mem_topoList_iff hwf
  have hlt : ∀ x ∈ (topoList g r).reverse, x < glen g := by
    intro x hx
    exact mem_topoList_lt hwf hr (List.mem_reverse.1 hx)
  have hinit : ∀ m, gradAt (setGrad g r 1) m
      = seed r m + (([] : List ℕ).map
          (fun x => coeffSum g x m * analyticDeriv g x r)).sum := by
    intro m
    rcases eq_or_ne m r with rfl | hmr
    · simp [gradAt_setGrad_self g m 1 hr, seed]
    · simp [gradAt_setGrad_ne g r 1 m hmr, h0 m, seed, hmr]
  have hrun := applyRules_invariant hwf r hr (topoList g r).reverse []
    (setGrad g r 1) (sameShape_setGrad g r 1)
    (by simpa using hnd)
    (by simpa using topoList_reverse_pairwise hwf r)
    (by simpa using hmem)
    (by simpa using hlt)
    hinit n
  have hback : Value.backward g r
      = applyRules (setGrad g r 1) (topoList g r).reverse := rfl
  rw [hback, hrun]
  simp only [List.nil_append]
  exact seed_add_sum_eq hwf hr hnd hlt
    (fun x _ hreach => (hmem x).2 hreach)

/-! ### Allocation (append) facts and well-formedness of built graphs -/

lemma glen_append_one (g : Graph) (nd : Value) :
    glen (g ++ [nd]) = glen g + 1 := by
  simp [glen]

lemma getElem?_append_lt (g : Graph) (nd : Value) {n : ℕ} (hn : n < glen g) :
    (g ++ [nd])[n]? = g[n]? := List.getElem?_append_left hn

lemma getElem?_append_self (g : Graph) (nd : Value) :
    (g ++ [nd])[glen g]? = some nd := by
  show (g ++ [nd])[List.length g]? = some nd
  rw [List.getElem?_append_right (le_refl _)]
  simp

lemma dataAt_append_lt (g : Graph) (nd : Value) {n : ℕ} (hn : n < glen g) :
    dataAt (g ++ [nd]) n = dataAt g n := by
  simp [dataAt, getElem?_append_lt g nd hn]

lemma gradAt_append_lt (g : Graph) (nd : Value) {n : ℕ} (hn : n < glen g) :
    gradAt (g ++ [nd]) n = gradAt g n := by
  simp [gradAt, getElem?_append_lt g nd hn]

lemma opAt_append_lt (g : Graph) (nd : Value) {n : ℕ} (hn : n < glen g) :
    opAt (g ++ [nd]) n = opAt g n := by
  simp [opAt, getElem?_append_lt g nd hn]

lemma dataAt_append_self (g : Graph) (nd : Value) :
    dataAt (g ++ [nd]) (glen g) = nd.data := by
  simp [dataAt, getElem?_append_self g nd]

lemma gradAt_append_self (g : Graph) (nd : Value) :
    gradAt (g ++ [nd]) (glen g) = nd.grad := by
  simp [gradAt, getElem?_append_self g nd]

lemma opAt_append_self (g : Graph) (nd : Value) :
    opAt (g ++ [nd]) (glen g) = nd.op := by
  simp [opAt, getElem?_append_self g nd]

/-- Appending a node whose operands already exist preserves
well-formedness; this is exactly what every operation does. -/
lemma WF.push {g : Graph} (hwf : WF g) {nd : Value}
    (hnd : ∀ j ∈ nd.op.args, j < glen g) : WF (g ++ [nd]) := by
  intro i hi j hj
  rw [glen_append_one] at hi
  rcases lt_or_ge i (glen g) with hilt | hige
  · rw [prevList, opAt_append_lt g nd hilt] at hj
    exact hwf i hilt j (hj : j ∈ prevList g i)
  · have hieq : i = glen g := by omega
    subst hieq
    rw [prevList, opAt_append_self g nd] at hj
    exact hnd j (List.mem_dedup.1 hj)

lemma WF.nil : WF ([] : Graph) := by
  intro i hi
  simp [glen] at hi

lemma WF.mkValue {g : Graph} (hwf : WF g) (c : ℚ) : WF (mkValue g c).1 :=
  hwf.push (by simp [Op.args])

lemma WF.addOp {g : Graph} (hwf : WF g) {i j : ℕ} (hi : i < glen g)
    (hj : j < glen g) : WF (addOp g i j).1 :=
  hwf.push (by simp [Op.args]; omega)

lemma WF.mulOp {g : Graph} (hwf : WF g) {i j : ℕ} (hi : i < glen g)
    (hj : j < glen g) : WF (mulOp g i j).1 :=
  hwf.push (by simp [Op.args]; omega)

lemma WF.powOp {g : Graph} (hwf : WF g) {i : ℕ} (hi : i < glen g) (p : ℤ) :
    WF (powOp g i p).1 :=
  hwf.push (by simp [Op.args]; omega)

lemma WF.reluOp {g : Graph} (hwf : WF g) {i : ℕ} (hi : i < glen g) :
    WF (reluOp g i).1 :=
  hwf.push (by simp [Op.args]; omega)

/-- A graph whose stored nodes all carry gradient 0 (any freshly built
graph) has `gradAt` identically 0. -/
lemma gradAt_zero_of_mem {g : Graph} (h : ∀ nd ∈ g, nd.grad = 0) :
    ∀ i, gradAt g i = 0 := by
  intro i
  unfold gradAt
  cases hi : g[i]? with
  | none => rfl
  | some nd => simp [h nd (List.getElem?_mem hi)]

/-! ### Stability: a node's gradient is final when its own rule runs -/

/-- Once the loop reaches position `p`, later steps never touch the
gradient of the node at position `p` (its rule fires only after all its
downstream contributions are in). -/
lemma applyRules_take_stable {g : Graph} (hwf : WF g) {h : Graph}
    (hsh : sameShape h g) {order : List ℕ}
    (hpw : List.Pairwise (fun u x => u ∉ prevList g x) order) :
    ∀ q, q ≤ order.length → ∀ p (hp : p < order.length), p ≤ q →
      gradAt (applyRules h (order.take q)) order[p]
        = gradAt (applyRules h (order.take p)) order[p] := by
  intro q
  induction q with
  | zero =>
    intro _ p hp hpq
    have hp0 : p = 0 := by omega
    subst hp0
    rfl
  | succ q ih =>
    intro hq p hp hpq
    rcases eq_or_lt_of_le hpq with rfl | hplt
    · rfl
    · have hpq2 : p ≤ q := by omega
      have hqlt : q < order.length := by omega
      have htake : order.take (q + 1) = order.take q ++ [order[q]] := by
        rw [List.take_succ, List.getElem?_eq_getElem hqlt]
        rfl
      rw [htake, applyRules_append]
      have hstep : applyRules (applyRules h (order.take q)) [order[q]]
          = stepBackward (applyRules h (order.take q)) order[q] := rfl
      rw [hstep, gradAt_stepBackward hwf
        (sameShape_trans (sameShape_applyRules h (order.take q)) hsh)]
      have hnarg : order[p] ∉ prevList g order[q] := by
        rcases eq_or_lt_of_le hpq2 with rfl | hplt2
        · intro hmem
          exact hwf.not_self_arg (mem_prevList_iff.1 hmem)
        · have hpair := List.pairwise_iff_get.1 hpw ⟨p, hp⟩ ⟨q, hqlt⟩ hplt2
          simpa using hpair
      rw [coeffSum_of_not_arg g (fun hmem => hnarg (mem_prevList_iff.2 hmem))]
      rw [ih (by omega) p hp hpq2]
      ring

/-! ### The error-aware backward pass -/

/-- Per-node safety of the `pow` backward rule: Boolean check that the
rule will not evaluate `0 ** negative`. -/
def powSafe (g : Graph) (i : ℕ) : Bool :=
  match opAt g i with
  | .pow a p => !(decide (dataAt g a = 0 ∧ p - 1 < 0))
  | _ => true

/-- As long as every node's `pow` rule is safe, the error-aware rule
loop runs to completion and computes exactly the total loop. -/
lemma foldlM_stepBackwardE {g : Graph}
    (hsafe : ∀ i, i < glen g → powSafe g i = true) :
    ∀ (L : List ℕ) (h : Graph), sameShape h g →
      L.foldlM stepBackwardE h = .ok (L.foldl stepBackward h) := by
  intro L
  induction L with
  | nil => intro h _; rfl
  | cons u rest ih =>
    intro h hsh
    have hstep : stepBackwardE h u = .ok (stepBackward h u) := by
      unfold stepBackwardE
      cases hop : opAt h u with
      | pow a p =>
        have hopg : opAt g u = .pow a p := by rw [← (hsh.2 u).2, hop]
        have hu : u < glen g :=
          lt_of_opAt_ne_leaf (g := g) (by rw [hopg]; simp)
        have hps := hsafe u hu
        unfold powSafe at hps
        rw [hopg] at hps
        simp only [Bool.not_eq_true', decide_eq_false_iff_not] at hps
        show (if dataAt h a = 0 ∧ p - 1 < 0 then
            (Except.error PyError.zeroDivision : Except PyError Graph)
          else Except.ok (stepBackward h u)) = Except.ok (stepBackward h u)
        rw [if_neg (by rw [(hsh.2 a).1]; exact hps)]
      | leaf => rfl
      | add a b => rfl
      | mul a b => rfl
      | relu a => rfl
    show stepBackwardE h u >>= (fun h2 => rest.foldlM stepBackwardE h2)
        = .ok ((u :: rest).foldl stepBackward h)
    rw [hstep]
    show rest.foldlM stepBackwardE (stepBackward h u)
        = .ok (rest.foldl stepBackward (stepBackward h u))
    exact ih (stepBackward h u)
      (sameShape_trans (sameShape_stepBackward h u) hsh)

/-! ### Concrete example graphs used by the spec's test properties -/

/-- The spec's chain-rule example `z = (x * y) ** 2`: node 0 is `x`,
node 1 is `y`, node 2 is `x * y`, node 3 (the root) is `(x * y) ** 2`. -/
def sqMulGraph (xv yv : ℚ) : Graph :=
  let r1 := mkValue [] xv
  let r2 := mkValue r1.1 yv
  let r3 := mulOp r2.1 r1.2 r2.2
  (powOp r3.1 r3.2 2).1

lemma sqMulGraph_wf (xv yv : ℚ) : WF (sqMulGraph xv yv) :=
  (((WF.nil.mkValue xv).mkValue yv).mulOp
      (show (0 : ℕ) < 2 by norm_num) (show (1 : ℕ) < 2 by norm_num)).powOp
    (show (2 : ℕ) < 3 by norm_num) 2

lemma sqMulGraph_grad0 (xv yv : ℚ) : ∀ i, gradAt (sqMulGraph xv yv) i = 0 := by
  apply gradAt_zero_of_mem
  intro nd hnd
  have hg : sqMulGraph xv yv =
      [⟨xv, 0, .leaf⟩, ⟨yv, 0, .leaf⟩, ⟨xv * yv, 0, .mul 0 1⟩,
       ⟨(xv * yv) ^ (2 : ℤ), 0, .pow 2 2⟩] := rfl
  rw [hg] at hnd
  simp only [List.mem_cons, List.not_mem_nil, or_false] at hnd
  rcases hnd with rfl | rfl | rfl | rfl <;> rfl

lemma sqMulGraph_reaches0 (xv yv : ℚ) : Reaches (sqMulGraph xv yv) 3 0 :=
  Relation.ReflTransGen.head
    (show (2 : ℕ) ∈ ([2] : List ℕ) by simp)
    (Relation.ReflTransGen.head
      (show (0 : ℕ) ∈ ([0, 1] : List ℕ) by simp)
      Relation.ReflTransGen.refl)

lemma sqMulGraph_reaches1 (xv yv : ℚ) : Reaches (sqMulGraph xv yv) 3 1 :=
  Relation.ReflTransGen.head
    (show (2 : ℕ) ∈ ([2] : List ℕ) by simp)
    (Relation.ReflTransGen.head
      (show (1 : ℕ) ∈ ([0, 1] : List ℕ) by simp)
      Relation.ReflTransGen.refl)

lemma sqMulGraph_pd0 (xv yv : ℚ) :
    analyticDeriv (sqMulGraph xv yv) 0 3 = 2 * (xv * yv) * yv := by
  have hwf := sqMulGraph_wf xv yv
  have hop3 : opAt (sqMulGraph xv yv) 3 = Op.pow 2 2 := rfl
  have hop2 : opAt (sqMulGraph xv yv) 2 = Op.mul 0 1 := rfl
  have hop1 : opAt (sqMulGraph xv yv) 1 = Op.leaf := rfl
  have hd0 : dataAt (sqMulGraph xv yv) 0 = xv := rfl
  have hd1 : dataAt (sqMulGraph xv yv) 1 = yv := rfl
  have hd2 : dataAt (sqMulGraph xv yv) 2 = xv * yv := rfl
  rw [analyticDeriv_pow hwf (by omega) hop3,
    analyticDeriv_mul hwf (by omega) hop2, analyticDeriv_self,
    analyticDeriv_leaf (by omega) hop1, hd0, hd1, hd2]
  norm_num

lemma sqMulGraph_pd1 (xv yv : ℚ) :
    analyticDeriv (sqMulGraph xv yv) 1 3 = 2 * (xv * yv) * xv := by
  have hwf := sqMulGraph_wf xv yv
  have hop3 : opAt (sqMulGraph xv yv) 3 = Op.pow 2 2 := rfl
  have hop2 : opAt (sqMulGraph xv yv) 2 = Op.mul 0 1 := rfl
  have hop0 : opAt (sqMulGraph xv yv) 0 = Op.leaf := rfl
  have hd0 : dataAt (sqMulGraph xv yv) 0 = xv := rfl
  have hd1 : dataAt (sqMulGraph xv yv) 1 = yv := rfl
  have hd2 : dataAt (sqMulGraph xv yv) 2 = xv * yv := rfl
  rw [analyticDeriv_pow hwf (by omega) hop3,
    analyticDeriv_mul hwf (by omega) hop2, analyticDeriv_self,
    analyticDeriv_leaf (by omega) hop0, hd0, hd1, hd2]
  norm_num

lemma sqMulGraph_glen (xv yv : ℚ) : glen (sqMulGraph xv yv) = 4 := rfl

/-- The spec's sharing example `y = x + x`: node 0 is `x`, node 1 (the
root) is `x + x`, whose `_prev` set has collapsed to the single
element `{x}` while both closure captures refer to `x`. -/
def xxGraph (xv : ℚ) : Graph := (addOp (mkValue [] xv).1 0 0).1

lemma xxGraph_wf (xv : ℚ) : WF (xxGraph xv) :=
  (WF.nil.mkValue xv).addOp
    (show (0 : ℕ) < 1 by norm_num) (show (0 : ℕ) < 1 by norm_num)

lemma xxGraph_grad0 (xv : ℚ) : ∀ i, gradAt (xxGraph xv) i = 0 := by
  apply gradAt_zero_of_mem
  intro nd hnd
  have hg : xxGraph xv = [⟨xv, 0, .leaf⟩, ⟨xv + xv, 0, .add 0 0⟩] := rfl
  rw [hg] at hnd
  simp only [List.mem_cons, List.not_mem_nil, or_false] at hnd
  rcases hnd with rfl | rfl <;> rfl

/-- A diamond: node 0 is `x`, node 1 is `x + x`, node 2 (the root) is
`(x + x) + x`, so `x` is an operand of two distinct downstream nodes. -/
def diamondGraph (xv : ℚ) : Graph :=
  (addOp (addOp (mkValue [] xv).1 0 0).1 1 0).1

lemma diamondGraph_wf (xv : ℚ) : WF (diamondGraph xv) :=
  ((WF.nil.mkValue xv).addOp
      (show (0 : ℕ) < 1 by norm_num) (show (0 : ℕ) < 1 by norm_num)).addOp
    (show (1 : ℕ) < 2 by norm_num) (show (0 : ℕ) < 2 by norm_num)

lemma diamondGraph_grad0 (xv : ℚ) : ∀ i, gradAt (diamondGraph xv) i = 0 := by
  apply gradAt_zero_of_mem
  intro nd hnd
  have hg : diamondGraph xv =
      [⟨xv, 0, .leaf⟩, ⟨xv + xv, 0, .add 0 0⟩,
       ⟨(xv + xv) + xv, 0, .add 1 0⟩] := rfl
  rw [hg] at hnd
  simp only [List.mem_cons, List.not_mem_nil, or_false] at hnd
  rcases hnd with rfl | rfl | rfl <;> rfl

/-! ### Claim theorems -/

/-- C1: for every expression graph built from the supported operations
(any well-formed graph with all gradients still 0) and any root,
`Value.backward` leaves in every node reachable from the root the exact
analytic partial derivative of the root's value with respect to that
node's value; in particular, for `z = (x * y) ** 2` it yields
`x.gradient = 2*(x.value*y.value)*y.value` and
`y.gradient = 2*(x.value*y.value)*x.value`. -/
theorem backward_computes_exact_gradients :
    (∀ (g : Graph) (r : ℕ), WF g → r < glen g → (∀ i, gradAt g i = 0) →
      ∀ n, Reaches g r n →
        gradAt (Value.backward g r) n = analyticDeriv g n r)
    ∧ (∀ xv yv : ℚ,
        gradAt (Value.backward (sqMulGraph xv yv) 3) 0
            = 2 * (xv * yv) * yv
        ∧ gradAt (Value.backward (sqMulGraph xv yv) 3) 1
            = 2 * (xv * yv) * xv) := by
  constructor
  · intro g r hwf hr h0 n hn
    exact backward_correct hwf hr h0 hn
  · intro xv yv
    have hr : (3 : ℕ) < glen (sqMulGraph xv yv) := by
      rw [sqMulGraph_glen]
      omega
    constructor
    · rw [backward_correct (sqMulGraph_wf xv yv) hr (sqMulGraph_grad0 xv yv)
        (sqMulGraph_reaches0 xv yv)]
      exact sqMulGraph_pd0 xv yv
    · rw [backward_correct (sqMulGraph_wf xv yv) hr (sqMulGraph_grad0 xv yv)
        (sqMulGraph_reaches1 xv yv)]
      exact sqMulGraph_pd1 xv yv

/-- C1 witness: the general theorem applied to the concrete graph
`z = (x * y) ** 2` at `x = 3`, `y = 5`, where the derivative evaluates
to `2 * 15 * 5 = 150`. -/
theorem backward_computes_exact_gradients_witness :
    gradAt (Value.backward (sqMulGraph 3 5) 3) 0
        = analyticDeriv (sqMulGraph 3 5) 0 3
    ∧ gradAt (Value.backward (sqMulGraph 3 5) 3) 0 = 150 := by
  constructor
  · exact backward_computes_exact_gradients.1 (sqMulGraph 3 5) 3
      (sqMulGraph_wf 3 5) (by rw [sqMulGraph_glen]; omega)
      (sqMulGraph_grad0 3 5) 0 (sqMulGraph_reaches0 3 5)
  · rw [(backward_computes_exact_gradients.2 3 5).1]
    norm_num

/-- C2: the backward pass builds, by depth-first post-order traversal
with a visited set, an order that contains every reachable node exactly
once (`Nodup` plus the membership equivalence) with every node after
all its operands (`OrdTopo`); it sets the root's gradient to exactly 1,
leaves every other gradient untouched, runs each recorded rule exactly
once by walking the order in reverse, and a node's gradient no longer
changes from the moment its own rule runs (all downstream contributions
are in). -/
theorem backward_topological_structure (g : Graph) (r : ℕ) (hwf : WF g)
    (hr : r < glen g) :
    (topoList g r).Nodup
    ∧ (∀ x, x ∈ topoList g r ↔ Reaches g r x)
    ∧ OrdTopo g (topoList g r)
    ∧ gradAt (setGrad g r 1) r = 1
    ∧ (∀ n, n ≠ r → gradAt (setGrad g r 1) n = gradAt g n)
    ∧ Value.backward g r
        = applyRules (setGrad g r 1) (topoList g r).reverse
    ∧ (∀ p (hp : p < (topoList g r).reverse.length),
        gradAt (applyRules (setGrad g r 1) ((topoList g r).reverse.take p))
            (topoList g r).reverse[p]
          = gradAt (Value.backward g r) (topoList g r).reverse[p]) := by
  refine ⟨topoList_nodup hwf r, fun x => mem_topoList_iff hwf,
    topoList_ord hwf r, gradAt_setGrad_self g r 1 hr,
    fun n hn => gradAt_setGrad_ne g r 1 n hn, rfl, ?_⟩
  intro p hp
  have hfin : Value.backward g r
      = applyRules (setGrad g r 1)
          ((topoList g r).reverse.take (topoList g r).reverse.length) := by
    rw [List.take_length]
    rfl
  rw [hfin]
  exact (applyRules_take_stable hwf (sameShape_setGrad g r 1)
    (topoList_reverse_pairwise hwf r) (topoList g r).reverse.length
    (le_refl _) p hp (by omega)).symm

/-- C2 witness: the structure theorem applied to the concrete graph
`z = (x * y) ** 2` at `x = 3`, `y = 5`, with root node 3. -/
theorem backward_topological_structure_witness :
    (topoList (sqMulGraph 3 5) 3).Nodup :=
  (backward_topological_structure (sqMulGraph 3 5) 3 (sqMulGraph_wf 3 5)
    (by rw [sqMulGraph_glen]; omega)).1

/-- C3: a node used as an operand of several downstream rules receives
the sum of all contributions: for `y = x + x` the backward pass yields
`x.gradient = 2` even though the `_prev` set of `y` has deduplicated
the repeated operand to `{x}`; and in a diamond where `x` feeds two
distinct downstream nodes (`x + x` and `(x + x) + x`) it receives all
three contributions, `x.gradient = 3`. -/
theorem shared_operand_gradients_sum (xv : ℚ) :
    gradAt (Value.backward (xxGraph xv) 1) 0 = 2
    ∧ prevList (xxGraph xv) 1 = [0]
    ∧ gradAt (Value.backward (diamondGraph xv) 2) 0 = 3 := by
  refine ⟨?_, rfl, ?_⟩
  · have hwf := xxGraph_wf xv
    have hr : (1 : ℕ) < glen (xxGraph xv) := by
      show (1 : ℕ) < 2
      omega
    rw [backward_correct hwf hr (xxGraph_grad0 xv)
      (Relation.ReflTransGen.head
        (show (0 : ℕ) ∈ ([0] : List ℕ) by simp)
        Relation.ReflTransGen.refl)]
    rw [analyticDeriv_add hwf (by omega)
      (rfl : opAt (xxGraph xv) 1 = Op.add 0 0), analyticDeriv_self]
    norm_num
  · have hwf := diamondGraph_wf xv
    have hr : (2 : ℕ) < glen (diamondGraph xv) := by
      show (2 : ℕ) < 3
      omega
    rw [backward_correct hwf hr (diamondGraph_grad0 xv)
      (Relation.ReflTransGen.head
        (show (0 : ℕ) ∈ ([1, 0] : List ℕ) by simp)
        Relation.ReflTransGen.refl)]
    rw [analyticDeriv_add hwf (by omega)
      (rfl : opAt (diamondGraph xv) 2 = Op.add 1 0),
      analyticDeriv_add hwf (by omega)
      (rfl : opAt (diamondGraph xv) 1 = Op.add 0 0),
      analyticDeriv_self]
    norm_num

/-- C4: `relu(a)` returns a node whose value is `max(0, a.value)`; its
backward rule contributes nothing to `a` when `a.value < 0` (output 0),
passes the output's gradient through unchanged when `a.value > 0`, and
at `a.value = 0` makes the deterministic non-positive choice: output 0
and zero gradient contribution — stated for the rule running in any
later gradient state `h` of the same graph. -/
theorem relu_value_and_gradient (g : Graph) (i : ℕ) (hi : i < glen g) :
    (reluOp g i).2 = glen g
    ∧ dataAt (reluOp g i).1 (glen g) = max 0 (dataAt g i)
    ∧ (dataAt g i < 0 → dataAt (reluOp g i).1 (glen g) = 0)
    ∧ (dataAt g i = 0 → dataAt (reluOp g i).1 (glen g) = 0)
    ∧ (0 < dataAt g i → dataAt (reluOp g i).1 (glen g) = dataAt g i)
    ∧ ∀ h, sameShape h (reluOp g i).1 →
        (dataAt g i ≤ 0 →
          gradAt (stepBackward h (glen g)) i = gradAt h i)
        ∧ (0 < dataAt g i →
          gradAt (stepBackward h (glen g)) i
            = gradAt h i + gradAt h (glen g)) := by
  have hval : dataAt (reluOp g i).1 (glen g)
      = if dataAt g i < 0 then 0 else dataAt g i := dataAt_append_self g _
  refine ⟨rfl, ?_, ?_, ?_, ?_, ?_⟩
  · rw [hval]
    rcases lt_or_ge (dataAt g i) 0 with h0 | h0
    · rw [if_pos h0, max_eq_left (le_of_lt h0)]
    · rw [if_neg (not_lt.2 h0), max_eq_right h0]
  · intro h0
    rw [hval, if_pos h0]
  · intro h0
    rw [hval, if_neg (by rw [h0]; norm_num), h0]
  · intro h0
    rw [hval, if_neg (not_lt.2 (le_of_lt h0))]
  · intro h hsh
    have hk : opAt h (glen g) = Op.relu i := by
      rw [(hsh.2 (glen g)).2]
      exact opAt_append_self g _
    have hdk : dataAt h (glen g) = if dataAt g i < 0 then 0 else dataAt g i := by
      rw [(hsh.2 (glen g)).1]
      exact hval
    have hstep : stepBackward h (glen g)
        = addGrad h i ((if 0 < dataAt h (glen g) then (1 : ℚ) else 0)
            * gradAt h (glen g)) := by
      unfold stepBackward
      rw [hk]
    have hil : i < glen h := by
      have h2 : glen (reluOp g i).1 = glen g + 1 := glen_append_one g _
      rw [hsh.1, h2]
      omega
    constructor
    · intro hle
      have hgate : ¬ 0 < dataAt h (glen g) := by
        rw [hdk]
        rcases lt_or_eq_of_le hle with hlt | heq
        · rw [if_pos hlt]
          norm_num
        · rw [heq, if_neg (by norm_num)]
          norm_num
      rw [hstep, gradAt_addGrad _ _ _ _ hil, if_pos rfl, if_neg hgate]
      ring
    · intro hpos
      have hgate : 0 < dataAt h (glen g) := by
        rw [hdk, if_neg (not_lt.2 (le_of_lt hpos))]
        exact hpos
      rw [hstep, gradAt_addGrad _ _ _ _ hil, if_pos rfl, if_pos hgate]
      ring

/-- C4 witness: relu applied to a single negative leaf, a single zero
leaf and a single positive leaf. -/
theorem relu_value_and_gradient_witness :
    dataAt (reluOp [⟨-2, 0, .leaf⟩] 0).1 1 = 0
    ∧ dataAt (reluOp [⟨0, 0, .leaf⟩] 0).1 1 = 0
    ∧ dataAt (reluOp [⟨2, 0, .leaf⟩] 0).1 1 = 2 := by
  refine ⟨?_, ?_, ?_⟩
  · exact (relu_value_and_gradient [⟨-2, 0, .leaf⟩] 0
      (by show (0 : ℕ) < 1; omega)).2.2.1 (by norm_num [dataAt])
  · exact (relu_value_and_gradient [⟨0, 0, .leaf⟩] 0
      (by show (0 : ℕ) < 1; omega)).2.2.2.1 (by norm_num [dataAt])
  · have h := (relu_value_and_gradient [⟨2, 0, .leaf⟩] 0
      (by show (0 : ℕ) < 1; omega)).2.2.2.2.1 (by norm_num [dataAt])
    show dataAt (reluOp [⟨2, 0, .leaf⟩] 0).1
      (glen [(⟨2, 0, .leaf⟩ : Value)]) = 2
    rw [h]
    norm_num [dataAt]

/-! ### Concrete graphs for the derived operations -/

/-- `-a` via `__neg__`: nodes 0:a, 1:(-1) (lifted), 2:a*(-1) (root). -/
def negGraph (av : ℚ) : Graph := (negOp (mkValue [] av).1 0).1

lemma negGraph_wf (av : ℚ) : WF (negGraph av) :=
  ((WF.nil.mkValue av).mkValue (-1)).mulOp
    (show (0 : ℕ) < 2 by norm_num) (show (1 : ℕ) < 2 by norm_num)

lemma negGraph_grad0 (av : ℚ) : ∀ i, gradAt (negGraph av) i = 0 := by
  apply gradAt_zero_of_mem
  intro nd hnd
  have hg : negGraph av =
      [⟨av, 0, .leaf⟩, ⟨-1, 0, .leaf⟩, ⟨av * -1, 0, .mul 0 1⟩] := rfl
  rw [hg] at hnd
  simp only [List.mem_cons, List.not_mem_nil, or_false] at hnd
  rcases hnd with rfl | rfl | rfl <;> rfl

/-- `a - b` via `__sub__` = `a + (-b)`: nodes 0:a, 1:b, 2:(-1),
3:b*(-1), 4:a+(b*(-1)) (root). -/
def subGraph (av bv : ℚ) : Graph :=
  (subOp (mkValue (mkValue [] av).1 bv).1 0 1).1

lemma subGraph_wf (av bv : ℚ) : WF (subGraph av bv) :=
  (((((WF.nil.mkValue av).mkValue bv).mkValue (-1)).mulOp
      (show (1 : ℕ) < 3 by norm_num) (show (2 : ℕ) < 3 by norm_num)).addOp
    (show (0 : ℕ) < 4 by norm_num) (show (3 : ℕ) < 4 by norm_num))

lemma subGraph_grad0 (av bv : ℚ) : ∀ i, gradAt (subGraph av bv) i = 0 := by
  apply gradAt_zero_of_mem
  intro nd hnd
  have hg : subGraph av bv =
      [⟨av, 0, .leaf⟩, ⟨bv, 0, .leaf⟩, ⟨-1, 0, .leaf⟩,
       ⟨bv * -1, 0, .mul 1 2⟩, ⟨av + bv * -1, 0, .add 0 3⟩] := rfl
  rw [hg] at hnd
  simp only [List.mem_cons, List.not_mem_nil, or_false] at hnd
  rcases hnd with rfl | rfl | rfl | rfl | rfl <;> rfl

/-- `a / b` via `__truediv__` = `a * b**-1` (the non-raising case):
nodes 0:a, 1:b, 2:b**-1, 3:a*(b**-1) (root). -/
def divGraph (av bv : ℚ) : Graph :=
  (mulOp (powOp (mkValue (mkValue [] av).1 bv).1 1 (-1)).1 0 2).1

lemma divGraph_wf (av bv : ℚ) : WF (divGraph av bv) :=
  ((((WF.nil.mkValue av).mkValue bv).powOp
      (show (1 : ℕ) < 2 by norm_num) (-1)).mulOp
    (show (0 : ℕ) < 3 by norm_num) (show (2 : ℕ) < 3 by norm_num))

lemma divGraph_grad0 (av bv : ℚ) : ∀ i, gradAt (divGraph av bv) i = 0 := by
  apply gradAt_zero_of_mem
  intro nd hnd
  have hg : divGraph av bv =
      [⟨av, 0, .leaf⟩, ⟨bv, 0, .leaf⟩, ⟨bv ^ (-1 : ℤ), 0, .pow 1 (-1)⟩,
       ⟨av * bv ^ (-1 : ℤ), 0, .mul 0 2⟩] := rfl
  rw [hg] at hnd
  simp only [List.mem_cons, List.not_mem_nil, or_false] at hnd
  rcases hnd with rfl | rfl | rfl | rfl <;> rfl

/-- C5: the derived operations are exactly their stated primitive
compositions: `__neg__` is `multiply(a, lift(-1))`, `__sub__` is
`add(a, negate(b))`, `__truediv__` is `multiply(a, power(b, -1))` —
structurally, in the values they compute, and in the gradients a
backward pass propagates (d(-a)/da = -1; d(a-b)/da = 1, d(a-b)/db = -1;
d(a/b)/da = 1/b, d(a/b)/db = -a/b²). -/
theorem derived_ops_are_primitive_compositions :
    (∀ (g : Graph) (i : ℕ), mulPy g i (.num (-1)) = .ok (negOp g i))
    ∧ (∀ (g : Graph) (i j : ℕ),
        subOp g i j = addOp (negOp g j).1 i (negOp g j).2)
    ∧ (∀ (g : Graph) (i j : ℕ),
        divPy g i j = (powPy g j (.num (-1))).map fun r => mulOp r.1 i r.2)
    ∧ (∀ (g : Graph) (i : ℕ), i < glen g →
        dataAt (negOp g i).1 (negOp g i).2 = -(dataAt g i))
    ∧ (∀ (g : Graph) (i j : ℕ), i < glen g → j < glen g →
        dataAt (subOp g i j).1 (subOp g i j).2 = dataAt g i - dataAt g j)
    ∧ (∀ (g : Graph) (i j : ℕ), i < glen g → dataAt g j ≠ 0 →
        divPy g i j = .ok (mulOp (powOp g j (-1)).1 i (glen g))
        ∧ dataAt (mulOp (powOp g j (-1)).1 i (glen g)).1 (glen g + 1)
            = dataAt g i / dataAt g j)
    ∧ (∀ av : ℚ, gradAt (Value.backward (negGraph av) 2) 0 = -1)
    ∧ (∀ av bv : ℚ,
        gradAt (Value.backward (subGraph av bv) 4) 0 = 1
        ∧ gradAt (Value.backward (subGraph av bv) 4) 1 = -1)
    ∧ (∀ av bv : ℚ, bv ≠ 0 →
        gradAt (Value.backward (divGraph av bv) 3) 0 = bv⁻¹
        ∧ gradAt (Value.backward (divGraph av bv) 3) 1 = -(av / bv ^ 2)) := by
  have hnegval : ∀ (g : Graph) (i : ℕ), i < glen g →
      dataAt (negOp g i).1 (negOp g i).2 = -(dataAt g i) := by
    intro g i hi
    show dataAt ((g ++ [⟨-1, 0, .leaf⟩])
        ++ [⟨dataAt (g ++ [⟨-1, 0, .leaf⟩]) i
              * dataAt (g ++ [⟨-1, 0, .leaf⟩]) (glen g), 0,
            .mul i (glen g)⟩]) (glen (g ++ [⟨-1, 0, .leaf⟩]))
      = -(dataAt g i)
    rw [dataAt_append_self, dataAt_append_lt g _ hi]
    have hminus : dataAt (g ++ [⟨-1, 0, .leaf⟩]) (glen g) = -1 :=
      dataAt_append_self g _
    rw [hminus]
    ring
  refine ⟨fun g i => rfl, fun g i j => rfl, fun g i j => rfl, hnegval,
    ?_, ?_, ?_, ?_, ?_⟩
  · intro g i j hi hj
    have hneg := hnegval g j hj
    show dataAt ((negOp g j).1
        ++ [⟨dataAt (negOp g j).1 i + dataAt (negOp g j).1 (negOp g j).2,
            0, .add i (negOp g j).2⟩]) (glen (negOp g j).1)
      = dataAt g i - dataAt g j
    rw [dataAt_append_self, hneg]
    have hdi : dataAt (negOp g j).1 i = dataAt g i := by
      show dataAt ((g ++ [⟨-1, 0, .leaf⟩]) ++ [_]) i = dataAt g i
      rw [dataAt_append_lt _ _ (by rw [glen_append_one]; omega),
        dataAt_append_lt g _ hi]
    rw [hdi]
    ring
  · intro g i j hi hj0
    have hok : divPy g i j = .ok (mulOp (powOp g j (-1)).1 i (glen g)) := by
      show Except.map (fun r => mulOp r.1 i r.2)
          (if dataAt g j = 0 ∧ (-1 : ℤ) < 0 then
            (Except.error PyError.zeroDivision : Except PyError (Graph × ℕ))
          else Except.ok (powOp g j (-1)))
        = Except.ok (mulOp (powOp g j (-1)).1 i (glen g))
      rw [if_neg (fun hc => hj0 hc.1)]
      rfl
    refine ⟨hok, ?_⟩
    show dataAt ((g ++ [⟨dataAt g j ^ (-1 : ℤ), 0, .pow j (-1)⟩])
        ++ [⟨dataAt (g ++ [⟨dataAt g j ^ (-1 : ℤ), 0, .pow j (-1)⟩]) i
              * dataAt (g ++ [⟨dataAt g j ^ (-1 : ℤ), 0, .pow j (-1)⟩]) (glen g),
            0, .mul i (glen g)⟩]) (glen g + 1)
      = dataAt g i / dataAt g j
    have hlen : glen g + 1 = glen (g ++ [⟨dataAt g j ^ (-1 : ℤ), 0, .pow j (-1)⟩]) := by
      rw [glen_append_one]
    rw [hlen, dataAt_append_self, dataAt_append_lt g _ hi,
      dataAt_append_self g _]
    rw [zpow_neg_one]
    rw [div_eq_mul_inv]
  · intro av
    have hwf := negGraph_wf av
    have hr : (2 : ℕ) < glen (negGraph av) := by
      show (2 : ℕ) < 3
      omega
    have hop2 : opAt (negGraph av) 2 = Op.mul 0 1 := rfl
    have hop1 : opAt (negGraph av) 1 = Op.leaf := rfl
    have hdm : dataAt (negGraph av) 1 = -1 := rfl
    rw [backward_correct hwf hr (negGraph_grad0 av)
      (Relation.ReflTransGen.head
        (show (0 : ℕ) ∈ ([0, 1] : List ℕ) by simp)
        Relation.ReflTransGen.refl)]
    rw [analyticDeriv_mul hwf (by omega) hop2, analyticDeriv_self,
      analyticDeriv_leaf (by omega) hop1, hdm]
    norm_num
  · intro av bv
    have hwf := subGraph_wf av bv
    have hr : (4 : ℕ) < glen (subGraph av bv) := by
      show (4 : ℕ) < 5
      omega
    have hop4 : opAt (subGraph av bv) 4 = Op.add 0 3 := rfl
    have hop3 : opAt (subGraph av bv) 3 = Op.mul 1 2 := rfl
    have hop0 : opAt (subGraph av bv) 0 = Op.leaf := rfl
    have hop1 : opAt (subGraph av bv) 1 = Op.leaf := rfl
    have hop2l : opAt (subGraph av bv) 2 = Op.leaf := rfl
    have hdm : dataAt (subGraph av bv) 2 = -1 := rfl
    constructor
    · rw [backward_correct hwf hr (subGraph_grad0 av bv)
        (Relation.ReflTransGen.head
          (show (0 : ℕ) ∈ ([0, 3] : List ℕ) by simp)
          Relation.ReflTransGen.refl)]
      rw [analyticDeriv_add hwf (by omega) hop4, analyticDeriv_self,
        analyticDeriv_mul hwf (by omega) hop3,
        analyticDeriv_leaf (by omega) hop1,
        analyticDeriv_leaf (by omega) hop2l]
      norm_num
    · rw [backward_correct hwf hr (subGraph_grad0 av bv)
        (Relation.ReflTransGen.head
          (show (3 : ℕ) ∈ ([0, 3] : List ℕ) by simp)
          (Relation.ReflTransGen.head
            (show (1 : ℕ) ∈ ([1, 2] : List ℕ) by simp)
            Relation.ReflTransGen.refl))]
      rw [analyticDeriv_add hwf (by omega) hop4,
        analyticDeriv_mul hwf (by omega) hop3, analyticDeriv_self,
        analyticDeriv_leaf (by omega) hop0,
        analyticDeriv_leaf (by omega) hop2l, hdm]
      norm_num
  · intro av bv hbv
    have hwf := divGraph_wf av bv
    have hr : (3 : ℕ) < glen (divGraph av bv) := by
      show (3 : ℕ) < 4
      omega
    have hop3 : opAt (divGraph av bv) 3 = Op.mul 0 2 := rfl
    have hop2 : opAt (divGraph av bv) 2 = Op.pow 1 (-1) := rfl
    have hop0 : opAt (divGraph av bv) 0 = Op.leaf := rfl
    have hop1 : opAt (divGraph av bv) 1 = Op.leaf := rfl
    have hd2 : dataAt (divGraph av bv) 2 = bv ^ (-1 : ℤ) := rfl
    have hd1 : dataAt (divGraph av bv) 1 = bv := rfl
    have hd0 : dataAt (divGraph av bv) 0 = av := rfl
    constructor
    · rw [backward_correct hwf hr (divGraph_grad0 av bv)
        (Relation.ReflTransGen.head
          (show (0 : ℕ) ∈ ([0, 2] : List ℕ) by simp)
          Relation.ReflTransGen.refl)]
      rw [analyticDeriv_mul hwf (by omega) hop3, analyticDeriv_self,
        analyticDeriv_pow hwf (by omega) hop2,
        analyticDeriv_leaf (by omega) hop1, hd2]
      rw [zpow_neg_one]
      ring
    · rw [backward_correct hwf hr (divGraph_grad0 av bv)
        (Relation.ReflTransGen.head
          (show (2 : ℕ) ∈ ([0, 2] : List ℕ) by simp)
          (Relation.ReflTransGen.head
            (show (1 : ℕ) ∈ ([1] : List ℕ) by simp)
            Relation.ReflTransGen.refl))]
      rw [analyticDeriv_mul hwf (by omega) hop3,
        analyticDeriv_pow hwf (by omega) hop2, analyticDeriv_self,
        analyticDeriv_leaf (by omega) hop0, hd1, hd0]
      have hz : bv ^ ((-1 : ℤ) - 1) = (bv ^ 2)⁻¹ := by
        rw [show ((-1 : ℤ) - 1) = -2 by norm_num, zpow_neg,
          show (2 : ℤ) = ((2 : ℕ) : ℤ) by norm_num, zpow_natCast]
      rw [hz]
      field_simp

/-- C5 witness: the composition facts instantiated at concrete nodes
and values, in particular `6 / 3` building `6 * 3⁻¹ = 2` and its
gradients `1/3` and `-6/9`. -/
theorem derived_ops_are_primitive_compositions_witness :
    dataAt (negOp [⟨7, 0, .leaf⟩] 0).1 (negOp [⟨7, 0, .leaf⟩] 0).2 = -7
    ∧ gradAt (Value.backward (divGraph 6 3) 3) 0 = (3 : ℚ)⁻¹ := by
  constructor
  · have h := derived_ops_are_primitive_compositions.2.2.2.1
      [⟨7, 0, .leaf⟩] 0 (by show (0 : ℕ) < 1; omega)
    rw [h]
    norm_num [dataAt]
  · exact (derived_ops_are_primitive_compositions.2.2.2.2.2.2.2.2
      6 3 (by norm_num)).1

/-- C6 counterexample: `Value(0) ** -1` does not succeed — the
forward computation `self.data ** other` raises `ZeroDivisionError`,
so "power with an int or float exponent p succeeds" is false as
stated. -/
theorem pow_int_exponent_can_fail :
    powPy [⟨0, 0, .leaf⟩] 0 (.num (-1)) = .error .zeroDivision := by
  show (if dataAt [⟨0, 0, .leaf⟩] 0 = 0 ∧ (-1 : ℤ) < 0 then
      (Except.error PyError.zeroDivision : Except PyError (Graph × ℕ))
    else Except.ok (powOp [⟨0, 0, .leaf⟩] 0 (-1)))
    = Except.error PyError.zeroDivision
  rw [if_pos ⟨rfl, by norm_num⟩]

/-- C6 (amended): a non-numeric (graph-node) exponent fails immediately
with the spec's InvalidOperation (the `assert isinstance` of
`__pow__`); an int exponent `p` succeeds with value `a.value ** p`
except in the `a.value = 0 ∧ p < 0` case, which raises
`ZeroDivisionError` at the same point (see C10). -/
theorem pow_exponent_validation :
    (∀ (g : Graph) (i j : ℕ), powPy g i (.node j) = .error .invalidOperation)
    ∧ (∀ (g : Graph) (i : ℕ) (p : ℤ), ¬(dataAt g i = 0 ∧ p < 0) →
        powPy g i (.num p) = .ok (powOp g i p)
        ∧ dataAt (powOp g i p).1 (powOp g i p).2 = dataAt g i ^ p)
    ∧ (∀ (g : Graph) (i : ℕ) (p : ℤ), dataAt g i = 0 → p < 0 →
        powPy g i (.num p) = .error .zeroDivision) := by
  refine ⟨fun g i j => rfl, ?_, ?_⟩
  · intro g i p hp
    constructor
    · show (if dataAt g i = 0 ∧ p < 0 then
          (Except.error PyError.zeroDivision : Except PyError (Graph × ℕ))
        else Except.ok (powOp g i p)) = Except.ok (powOp g i p)
      rw [if_neg hp]
    · exact dataAt_append_self g _
  · intro g i p h0 hp
    show (if dataAt g i = 0 ∧ p < 0 then
        (Except.error PyError.zeroDivision : Except PyError (Graph × ℕ))
      else Except.ok (powOp g i p)) = Except.error PyError.zeroDivision
    rw [if_pos ⟨h0, hp⟩]

/-- C6 witness: a successful power `2 ** 3 = 8` and the rejected
node-exponent call, both on a one-leaf graph. -/
theorem pow_exponent_validation_witness :
    powPy [⟨2, 0, .leaf⟩] 0 (.num 3) = .ok (powOp [⟨2, 0, .leaf⟩] 0 3)
    ∧ powPy [⟨2, 0, .leaf⟩] 0 (.node 0) = .error .invalidOperation := by
  constructor
  · exact (pow_exponent_validation.2.1 [⟨2, 0, .leaf⟩] 0 3
      (by norm_num [dataAt])).1
  · exact pow_exponent_validation.1 [⟨2, 0, .leaf⟩] 0 0

/-- C7: a non-numeric, non-node operand makes `__add__`/`__mul__` fail
immediately with the spec's TypeMismatch (Python's `TypeError` at
`self.data + other.data`); a numeric operand is lifted by
`Value(other)` into a fresh leaf node (value c, gradient 0, empty
operands) leaving every existing node untouched. -/
theorem operand_lifting_and_type_errors :
    (∀ (g : Graph) (i : ℕ),
      addPy g i .nonNumeric = .error .typeMismatch
      ∧ mulPy g i .nonNumeric = .error .typeMismatch)
    ∧ (∀ (g : Graph) (i : ℕ) (c : ℚ),
      addPy g i (.num c) = .ok (addOp (mkValue g c).1 i (mkValue g c).2)
      ∧ mulPy g i (.num c) = .ok (mulOp (mkValue g c).1 i (mkValue g c).2)
      ∧ dataAt (mkValue g c).1 (mkValue g c).2 = c
      ∧ gradAt (mkValue g c).1 (mkValue g c).2 = 0
      ∧ opAt (mkValue g c).1 (mkValue g c).2 = .leaf
      ∧ ∀ n, n < glen g → (mkValue g c).1[n]? = g[n]?) := by
  refine ⟨fun g i => ⟨rfl, rfl⟩, ?_⟩
  intro g i c
  exact ⟨rfl, rfl, dataAt_append_self g _, gradAt_append_self g _,
    opAt_append_self g _, fun n hn => getElem?_append_lt g _ hn⟩

/-- C7 witness: lifting `5` onto a one-leaf graph and the immediate
type error. -/
theorem operand_lifting_and_type_errors_witness :
    addPy [⟨1, 0, .leaf⟩] 0 .nonNumeric = .error .typeMismatch
    ∧ (mkValue [⟨1, 0, .leaf⟩] 5).1[0]? = some ⟨1, 0, .leaf⟩ := by
  constructor
  · exact (operand_lifting_and_type_errors.1 [⟨1, 0, .leaf⟩] 0).1
  · rw [(operand_lifting_and_type_errors.2 [⟨1, 0, .leaf⟩] 0 5).2.2.2.2.2 0
      (by show (0 : ℕ) < 1; omega)]
    rfl

/-- The graph `z = x ** 0` with `x = 0`: the forward pass succeeds
(`0 ** 0 = 1` in Python and in ℚ), but `z`'s backward rule evaluates
`self.data ** (other - 1) = 0 ** (-1)`. -/
def powZeroGraph : Graph := (powOp (mkValue [] 0).1 0 0).1

/-- C8 counterexample: the backward traversal itself can raise — on
`z = Value(0) ** 0`, `z.backward()` raises `ZeroDivisionError` inside
the power rule, so "no runtime error for all operand values" is false
as stated. -/
theorem backward_can_raise_zero_division :
    backwardE powZeroGraph 1 = .error .zeroDivision := by
  have htopo : (topoList powZeroGraph 1).reverse = [1, 0] := rfl
  show (topoList powZeroGraph 1).reverse.foldlM stepBackwardE
      (setGrad powZeroGraph 1 1) = .error .zeroDivision
  rw [htopo]
  show (stepBackwardE (setGrad powZeroGraph 1 1) 1 >>= fun h =>
      [0].foldlM stepBackwardE h) = .error .zeroDivision
  have hstep : stepBackwardE (setGrad powZeroGraph 1 1) 1
      = .error .zeroDivision := by
    show (if dataAt (setGrad powZeroGraph 1 1) 0 = 0 ∧ (0 : ℤ) - 1 < 0 then
        (Except.error PyError.zeroDivision : Except PyError Graph)
      else Except.ok (stepBackward (setGrad powZeroGraph 1 1) 1))
      = Except.error PyError.zeroDivision
    rw [if_pos ⟨rfl, by norm_num⟩]
  rw [hstep]
  rfl

/-- C8 (amended): the backward traversal raises no error unless some
node's `pow` rule has to evaluate `0 ** negative`, i.e. has a
zero-valued base and exponent `p` with `p - 1 < 0`; when every `pow`
node is safe in this sense, the error-aware pass completes and returns
exactly the state the total pass computes. -/
theorem backward_error_free_unless_zero_pow (g : Graph) (r : ℕ)
    (hsafe : ∀ i, i < glen g → powSafe g i = true) :
    backwardE g r = .ok (Value.backward g r) :=
  foldlM_stepBackwardE hsafe (topoList g r).reverse (setGrad g r 1)
    (sameShape_setGrad g r 1)

/-- C8 witness: on a single-leaf graph every rule is safe and the
error-aware pass agrees with the total pass. -/
theorem backward_error_free_unless_zero_pow_witness :
    backwardE [⟨5, 0, .leaf⟩] 0 = .ok (Value.backward [⟨5, 0, .leaf⟩] 0) :=
  backward_error_free_unless_zero_pow [⟨5, 0, .leaf⟩] 0
    (by decide)

lemma getElem?_append2_lt (g : Graph) (n1 n2 : Value) {n : ℕ}
    (hn : n < glen g) : ((g ++ [n1]) ++ [n2])[n]? = g[n]? := by
  rw [getElem?_append_lt (g ++ [n1]) n2
      (by rw [glen_append_one]; omega),
    getElem?_append_lt g n1 hn]

lemma getElem?_append3_lt (g : Graph) (n1 n2 n3 : Value) {n : ℕ}
    (hn : n < glen g) : (((g ++ [n1]) ++ [n2]) ++ [n3])[n]? = g[n]? := by
  rw [getElem?_append_lt ((g ++ [n1]) ++ [n2]) n3
      (by rw [glen_append_one, glen_append_one]; omega),
    getElem?_append2_lt g n1 n2 hn]

/-- C9 counterexample: `negate` on a one-node graph allocates two new
nodes (the lifted `-1` leaf and the product), not exactly one — the
arena grows from 1 to 3 nodes. -/
theorem negate_allocates_two_nodes :
    glen (negOp [⟨5, 0, .leaf⟩] 0).1 = 3 := rfl

/-- C9 (amended): each primitive operation (`Value(...)` lifting
included) appends exactly one new node — with gradient 0, value
computed from the operand values, and operation record pointing at the
operands — and leaves every existing node (value, gradient and
operands) bit-for-bit unchanged; the derived operations are
compositions and therefore append two (`negate`, `divide`) or three
(`subtract`) nodes while still leaving all existing nodes unchanged. -/
theorem construction_frame_conditions :
    (∀ (g : Graph) (c : ℚ), glen (mkValue g c).1 = glen g + 1
      ∧ gradAt (mkValue g c).1 (glen g) = 0
      ∧ (∀ n, n < glen g → (mkValue g c).1[n]? = g[n]?))
    ∧ (∀ (g : Graph) (i j : ℕ), glen (addOp g i j).1 = glen g + 1
      ∧ gradAt (addOp g i j).1 (glen g) = 0
      ∧ dataAt (addOp g i j).1 (glen g) = dataAt g i + dataAt g j
      ∧ opAt (addOp g i j).1 (glen g) = .add i j
      ∧ (∀ n, n < glen g → (addOp g i j).1[n]? = g[n]?))
    ∧ (∀ (g : Graph) (i j : ℕ), glen (mulOp g i j).1 = glen g + 1
      ∧ gradAt (mulOp g i j).1 (glen g) = 0
      ∧ dataAt (mulOp g i j).1 (glen g) = dataAt g i * dataAt g j
      ∧ opAt (mulOp g i j).1 (glen g) = .mul i j
      ∧ (∀ n, n < glen g → (mulOp g i j).1[n]? = g[n]?))
    ∧ (∀ (g : Graph) (i : ℕ) (p : ℤ), glen (powOp g i p).1 = glen g + 1
      ∧ gradAt (powOp g i p).1 (glen g) = 0
      ∧ dataAt (powOp g i p).1 (glen g) = dataAt g i ^ p
      ∧ opAt (powOp g i p).1 (glen g) = .pow i p
      ∧ (∀ n, n < glen g → (powOp g i p).1[n]? = g[n]?))
    ∧ (∀ (g : Graph) (i : ℕ), glen (reluOp g i).1 = glen g + 1
      ∧ gradAt (reluOp g i).1 (glen g) = 0
      ∧ opAt (reluOp g i).1 (glen g) = .relu i
      ∧ (∀ n, n < glen g → (reluOp g i).1[n]? = g[n]?))
    ∧ (∀ (g : Graph) (i : ℕ), glen (negOp g i).1 = glen g + 2
      ∧ (∀ n, n < glen g → (negOp g i).1[n]? = g[n]?))
    ∧ (∀ (g : Graph) (i j : ℕ), glen (subOp g i j).1 = glen g + 3
      ∧ (∀ n, n < glen g → (subOp g i j).1[n]? = g[n]?))
    ∧ (∀ (g : Graph) (i j : ℕ), dataAt g j ≠ 0 →
        divPy g i j = .ok (mulOp (powOp g j (-1)).1 i (glen g))
        ∧ glen (mulOp (powOp g j (-1)).1 i (glen g)).1 = glen g + 2
        ∧ (∀ n, n < glen g →
            (mulOp (powOp g j (-1)).1 i (glen g)).1[n]? = g[n]?)) := by
  have hone : ∀ (g : Graph) (nd : Value), glen (g ++ [nd]) = glen g + 1 :=
    glen_append_one
  refine ⟨?_, ?_, ?_, ?_, ?_, ?_, ?_, ?_⟩
  · intro g c
    exact ⟨hone g _, gradAt_append_self g _,
      fun n hn => getElem?_append_lt g _ hn⟩
  · intro g i j
    exact ⟨hone g _, gradAt_append_self g _, dataAt_append_self g _,
      opAt_append_self g _, fun n hn => getElem?_append_lt g _ hn⟩
  · intro g i j
    exact ⟨hone g _, gradAt_append_self g _, dataAt_append_self g _,
      opAt_append_self g _, fun n hn => getElem?_append_lt g _ hn⟩
  · intro g i p
    exact ⟨hone g _, gradAt_append_self g _, dataAt_append_self g _,
      opAt_append_self g _, fun n hn => getElem?_append_lt g _ hn⟩
  · intro g i
    exact ⟨hone g _, gradAt_append_self g _,
      opAt_append_self g _, fun n hn => getElem?_append_lt g _ hn⟩
  · intro g i
    constructor
    · show glen ((g ++ [⟨-1, 0, .leaf⟩]) ++ [_]) = glen g + 2
      rw [hone, hone]
    · intro n hn
      exact getElem?_append2_lt g _ _ hn
  · intro g i j
    constructor
    · show glen (((g ++ [⟨-1, 0, .leaf⟩]) ++ [_]) ++ [_]) = glen g + 3
      rw [hone, hone, hone]
    · intro n hn
      exact getElem?_append3_lt g _ _ _ hn
  · intro g i j hj0
    refine ⟨?_, ?_, ?_⟩
    · show Except.map (fun r => mulOp r.1 i r.2)
          (if dataAt g j = 0 ∧ (-1 : ℤ) < 0 then
            (Except.error PyError.zeroDivision : Except PyError (Graph × ℕ))
          else Except.ok (powOp g j (-1)))
        = Except.ok (mulOp (powOp g j (-1)).1 i (glen g))
      rw [if_neg (fun hc => hj0 hc.1)]
      rfl
    · show glen ((g ++ [_]) ++ [_]) = glen g + 2
      rw [hone, hone]
    · intro n hn
      exact getElem?_append2_lt g _ _ hn

/-- C9 witness: the frame facts instantiated on a one-node graph:
`add` grows it to 2 nodes, `subtract` to 4, and the original node is
unchanged after `negate`. -/
theorem construction_frame_conditions_witness :
    glen (addOp [⟨1, 0, .leaf⟩] 0 0).1 = 2
    ∧ glen (subOp [⟨1, 0, .leaf⟩] 0 0).1 = 4
    ∧ (negOp [⟨1, 0, .leaf⟩] 0).1[0]? = some ⟨1, 0, .leaf⟩ := by
  refine ⟨(construction_frame_conditions.2.1 [⟨1, 0, .leaf⟩] 0 0).1,
    (construction_frame_conditions.2.2.2.2.2.2.1 [⟨1, 0, .leaf⟩] 0 0).1, ?_⟩
  rw [(construction_frame_conditions.2.2.2.2.2.1 [⟨1, 0, .leaf⟩] 0).2 0
    (by show (0 : ℕ) < 1; omega)]
  rfl

/-- C10: dividing by a node whose value is 0, and more generally power
with a negative exponent on a zero-valued node, raises an unguarded
ZeroDivisionError while the graph is being built — before any backward
pass can run. -/
theorem zero_division_at_construction :
    (∀ (g : Graph) (i j : ℕ), dataAt g j = 0 →
      divPy g i j = .error .zeroDivision)
    ∧ (∀ (g : Graph) (i : ℕ) (p : ℤ), dataAt g i = 0 → p < 0 →
      powPy g i (.num p) = .error .zeroDivision) := by
  constructor
  · intro g i j hj
    show Except.map (fun r => mulOp r.1 i r.2)
        (if dataAt g j = 0 ∧ (-1 : ℤ) < 0 then
          (Except.error PyError.zeroDivision : Except PyError (Graph × ℕ))
        else Except.ok (powOp g j (-1)))
      = Except.error PyError.zeroDivision
    rw [if_pos ⟨hj, by norm_num⟩]
    rfl
  · intro g i p h0 hp
    show (if dataAt g i = 0 ∧ p < 0 then
        (Except.error PyError.zeroDivision : Except PyError (Graph × ℕ))
      else Except.ok (powOp g i p)) = Except.error PyError.zeroDivision
    rw [if_pos ⟨h0, hp⟩]

/-- C10 witness: `a / b` with `b = Value(0)` raises at construction. -/
theorem zero_division_at_construction_witness :
    divPy [⟨1, 0, .leaf⟩, ⟨0, 0, .leaf⟩] 0 1 = .error .zeroDivision :=
  zero_division_at_construction.1 [⟨1, 0, .leaf⟩, ⟨0, 0, .leaf⟩] 0 1 rfl

end Micrograd
